import Mathlib

/-!
Verification of the IOC classification, exclusion-matching and list-membership
core of the `nope` blocklist manager (backend/app/services/validation.py,
exclusion_service.py, ioc_service.py, api/lists.py and their models).

Strings are modelled as `List Char`.  The Python standard-library `ipaddress`
functions used by the code (`ip_address`, `ip_network(strict=False)`,
membership, `subnet_of`, `str(...)`) are embedded following the CPython
implementation.  Out of model scope (documented at the relevant definition):
IPv6 scope/zone-id suffixes (`%zone`) and non-ASCII case mappings of
`str.lower`/`str.strip` — none of the claims touch either.
-/

namespace Nope

/-- ASCII whitespace, the characters removed by Python `str.strip()` on the
ASCII plane. -/
def isPySpace (c : Char) : Bool :=
  c = ' ' || c = '\t' || c = '\n' || c = '\x0d' || c = '\x0b' || c = '\x0c'

/-- Python `str.strip()` (ASCII whitespace). -/
def pyStrip (cs : List Char) : List Char :=
  ((cs.dropWhile isPySpace).reverse.dropWhile isPySpace).reverse

/-- Python `str.lower()` on one ASCII character. -/
def lowerChar (c : Char) : Char :=
  if 65 ≤ c.toNat ∧ c.toNat ≤ 90 then Char.ofNat (c.toNat + 32) else c

/-- Python `str.lower()` (ASCII). -/
def pyLower (cs : List Char) : List Char := cs.map lowerChar

/-- `sep.join(parts)`. -/
def joinSep (sep : Char) : List (List Char) → List Char
  | [] => []
  | [p] => p
  | p :: ps => p ++ sep :: joinSep sep ps

/-- Python `str.split(sep)` for a one-character separator: splits on every
occurrence, keeping empty pieces (`"a::b".split(':') == ['a','','b']`). -/
def splitOnChar (sep : Char) : List Char → List (List Char)
  | [] => [[]]
  | c :: cs =>
    if c = sep then
      [] :: splitOnChar sep cs
    else
      match splitOnChar sep cs with
      | [] => [[c]]
      | p :: ps => (c :: p) :: ps

def isDigitChar (c : Char) : Bool := 48 ≤ c.toNat && c.toNat ≤ 57

def isHexChar (c : Char) : Bool :=
  isDigitChar c || (97 ≤ c.toNat && c.toNat ≤ 102) || (65 ≤ c.toNat && c.toNat ≤ 70)

def isAlphaChar (c : Char) : Bool :=
  (97 ≤ c.toNat && c.toNat ≤ 122) || (65 ≤ c.toNat && c.toNat ≤ 90)

def digitVal (c : Char) : Nat := c.toNat - 48

def hexVal (c : Char) : Nat :=
  if isDigitChar c then digitVal c
  else if 97 ≤ c.toNat ∧ c.toNat ≤ 102 then c.toNat - 97 + 10
  else c.toNat - 65 + 10

/-- Value of a forward decimal digit string (`int(s, 10)` on digit-only input). -/
def decValue (cs : List Char) : Nat := cs.foldl (fun a c => 10 * a + digitVal c) 0

/-- Value of a forward hex digit string (`int(s, 16)` on hex-digit-only input). -/
def hexValue (cs : List Char) : Nat := cs.foldl (fun a c => 16 * a + hexVal c) 0

/-- Decimal digit character for `d < 10`. -/
def decDigitChar (d : Nat) : Char := Char.ofNat (48 + d)

/-- Lowercase hex digit character for `d < 16` (Python `'%x'`). -/
def hexDigitChar (d : Nat) : Char :=
  if d < 10 then Char.ofNat (48 + d) else Char.ofNat (97 + (d - 10))

/-- Little-endian decimal digits of `n`, `fuel` bounds the digit count. -/
def decDigitsRev : Nat → Nat → List Char
  | 0, _ => []
  | _ + 1, 0 => []
  | fuel + 1, n => decDigitChar (n % 10) :: decDigitsRev fuel (n / 10)

/-- Decimal representation of `n < 10^fuel` without leading zeros
(Python `str(n)`; used only for numbers the code prints: octets and
prefix lengths). -/
def decChars (fuel n : Nat) : List Char :=
  if n = 0 then ['0'] else (decDigitsRev fuel n).reverse

/-- Little-endian lowercase hex digits of `n`. -/
def hexDigitsRev : Nat → Nat → List Char
  | 0, _ => []
  | _ + 1, 0 => []
  | fuel + 1, n => hexDigitChar (n % 16) :: hexDigitsRev fuel (n / 16)

/-- Lowercase hex form of a hextet value `n < 2^16` without leading zeros
(Python `'%x' % n`). -/
def hexChars4 (n : Nat) : List Char :=
  if n = 0 then ['0'] else (hexDigitsRev 4 n).reverse

/-- Value of a little-endian hex digit list (proof helper). -/
def valRev : List Char → Nat
  | [] => 0
  | c :: cs => hexVal c + 16 * valRev cs

/-! ### CPython `ipaddress`: IPv4 -/

/-- CPython `IPv4Address._parse_octet`: non-empty, decimal digits only, at
most 3 characters, no leading zero, value at most 255. -/
def parseOctet (cs : List Char) : Option Nat :=
  if cs ≠ [] ∧ cs.all isDigitChar then
    if cs.length > 3 then none
    else if cs.length > 1 ∧ cs.head? = some '0' then none
    else if decValue cs > 255 then none
    else some (decValue cs)
  else none

/-- CPython `IPv4Address._ip_int_from_string`: split on `'.'`, exactly four
octets, big-endian byte composition. -/
def parseIPv4 (cs : List Char) : Option Nat :=
  match splitOnChar '.' cs with
  | [a, b, c, d] =>
    (parseOctet a).bind fun oa =>
    (parseOctet b).bind fun ob =>
    (parseOctet c).bind fun oc =>
    (parseOctet d).map fun od =>
      ((oa * 256 + ob) * 256 + oc) * 256 + od
  | _ => none

/-- `str(IPv4Address)`: dotted quad. -/
def ipv4Chars (n : Nat) : List Char :=
  decChars 3 (n / 16777216 % 256) ++ '.' ::
  (decChars 3 (n / 65536 % 256) ++ '.' ::
  (decChars 3 (n / 256 % 256) ++ '.' :: decChars 3 (n % 256)))

/-! ### CPython `ipaddress`: IPv6 -/

/-- CPython `IPv6Address._parse_hextet`: hex digits only, at most 4 of them,
non-empty (`int('', 16)` raises). -/
def parseHextet (cs : List Char) : Option Nat :=
  if cs ≠ [] ∧ cs.all isHexChar ∧ cs.length ≤ 4 then some (hexValue cs)
  else none

/-- The scan CPython's `_ip_int_from_string` performs over the colon-parts:
indices `1 .. len-2` holding an empty part; `some none` when there is none
(no `'::'`), `some (some i)` for exactly one, `none` for two or more
(`raise`). -/
def findSkipIndex (parts : List (List Char)) : Option (Option Nat) :=
  let mids := (List.range parts.length).filter
    (fun i => 1 ≤ i ∧ i + 1 < parts.length ∧ parts.get? i = some [])
  match mids with
  | [] => some none
  | [i] => some (some i)
  | _ => none

/-- `foldl (acc * 2^16 + hextet)`, the big-endian hextet composition. -/
def recompose (hs : List Nat) : Nat := hs.foldl (fun a h => a * 65536 + h) 0

/-- The hi/lo bookkeeping of `_ip_int_from_string` around a `'::'` at part
index `i`: `parts_hi = i` decremented (and required zero) when the first
part is empty, symmetrically for `parts_lo`. -/
def skipCounts (parts : List (List Char)) (i : Nat) : Option (Nat × Nat) :=
  let hiRes : Option Nat :=
    if parts.head? = some [] then (if i - 1 = 0 then some 0 else none)
    else some i
  let loRes : Option Nat :=
    if parts.getLast? = some [] then
      (if parts.length - i - 1 - 1 = 0 then some 0 else none)
    else some (parts.length - i - 1)
  match hiRes, loRes with
  | some hi, some lo => some (hi, lo)
  | _, _ => none

/-- CPython `IPv6Address._ip_int_from_string` run on the already-split
colon-parts (split and IPv4-embedding handled by `parseIPv6`). -/
def parseIPv6Parts (parts : List (List Char)) : Option Nat :=
  if parts.length > 9 then none
  else
    match findSkipIndex parts with
    | none => none
    | some (some i) =>
      match skipCounts parts i with
      | none => none
      | some (hi, lo) =>
        if 8 < hi + lo + 1 then none
        else
          match (parts.take hi).mapM parseHextet,
              (parts.drop (parts.length - lo)).mapM parseHextet with
          | some hiVals, some loVals =>
            let a1 := hiVals.foldl (fun a h => a * 65536 + h) 0
            let a2 := a1 * 65536 ^ (8 - (hi + lo))
            some (loVals.foldl (fun a h => a * 65536 + h) a2)
          | _, _ => none
    | some none =>
      if parts.length = 8 then
        match parts.mapM parseHextet with
        | some vals => some (recompose vals)
        | none => none
      else none

/-- CPython `IPv6Address._ip_int_from_string`: split on `':'`, at least 3
parts, embedded dotted-quad allowed in the last part, then `'::'`
bookkeeping.  Scope/zone-id forms (`%zone`) are outside the model. -/
def parseIPv6 (cs : List Char) : Option Nat :=
  if cs = [] then none
  else
    let parts0 := splitOnChar ':' cs
    if parts0.length < 3 then none
    else
      match parts0.getLast? with
      | none => none
      | some lastP =>
        if lastP.contains '.' then
          match parseIPv4 lastP with
          | none => none
          | some v4 =>
            parseIPv6Parts (parts0.dropLast ++
              [hexChars4 (v4 / 65536), hexChars4 (v4 % 65536)])
        else parseIPv6Parts parts0

/-- The eight big-endian hextets of a 128-bit value (CPython slices
`'%032x' % n` into eight 4-hex-digit groups). -/
def hextetsOf (n : Nat) : List Nat :=
  [n / 2 ^ 112 % 65536, n / 2 ^ 96 % 65536, n / 2 ^ 80 % 65536,
   n / 2 ^ 64 % 65536, n / 2 ^ 48 % 65536, n / 2 ^ 32 % 65536,
   n / 2 ^ 16 % 65536, n % 65536]

/-- State of CPython `_compress_hextets`' best-run scan (`-1` sentinels of
the Python locals become `none`). -/
structure RunState where
  bs : Option Nat
  bl : Nat
  cs : Option Nat
  cl : Nat
deriving Repr, DecidableEq

/-- One iteration of the `_compress_hextets` loop. -/
def runStep (st : RunState) (idx : Nat) (isZero : Bool) : RunState :=
  if isZero then
    let cs' := match st.cs with
      | none => some idx
      | some s => some s
    let cl' := st.cl + 1
    if cl' > st.bl then ⟨cs', cl', cs', cl'⟩ else ⟨st.bs, st.bl, cs', cl'⟩
  else ⟨st.bs, st.bl, none, 0⟩

def scanRuns : List (List Char) → Nat → RunState → RunState
  | [], _, st => st
  | s :: rest, idx, st => scanRuns rest (idx + 1) (runStep st idx (s = ['0']))

/-- The best (first longest) run of `'0'` hextet strings. -/
def bestRun (S : List (List Char)) : Option Nat × Nat :=
  let st := scanRuns S 0 ⟨none, 0, none, 0⟩
  (st.bs, st.bl)

/-- Invariant of the `_compress_hextets` scan after `i` elements (proof
helper): the current run is a zero-run ending at `i`, the best run is a
zero-run within the scanned prefix. -/
def RunInv (S : List (List Char)) (i : Nat) (st : RunState) : Prop :=
  (st.cs = none → st.cl = 0) ∧
  (∀ s, st.cs = some s → s + st.cl = i ∧
    (∀ j, s ≤ j → j < i → S.get? j = some ['0'])) ∧
  (∀ b, st.bs = some b → b + st.bl ≤ i ∧
    (∀ j, b ≤ j → j < b + st.bl → S.get? j = some ['0'])) ∧
  (st.bs = none → st.bl = 0)

/-- CPython `IPv6Address._compress_hextets`: splice the best run (length at
least 2) into an empty part, with an extra empty part when the run touches
either end. -/
def compressHextets (S : List (List Char)) : List (List Char) :=
  match bestRun S with
  | (some bs, bl) =>
    if bl > 1 then
      let e := bs + bl
      let withEnd := if e = S.length then S ++ [[]] else S
      let spliced := withEnd.take bs ++ [[]] ++ withEnd.drop e
      if bs = 0 then [] :: spliced else spliced
    else S
  | (none, _) => S

/-- `str(IPv6Address)`: hextets in lowercase hex, best zero-run compressed
to `'::'`. -/
def ipv6Chars (n : Nat) : List Char :=
  joinSep ':' (compressHextets ((hextetsOf n).map hexChars4))

/-! ### `ip_address`, `ip_network` and network operations -/

/-- An address value: the version (4 or 6 bits-width tag) plus integer. -/
inductive IPAddr where
  | v4 (n : Nat)
  | v6 (n : Nat)
deriving Repr, DecidableEq

/-- CPython `ipaddress.ip_address` on a string: IPv4 first, then IPv6. -/
def parseIPAddress (cs : List Char) : Option IPAddr :=
  match parseIPv4 cs with
  | some n => some (.v4 n)
  | none =>
    match parseIPv6 cs with
    | some n => some (.v6 n)
    | none => none

/-- `str()` of an address. -/
def addrChars : IPAddr → List Char
  | .v4 n => ipv4Chars n
  | .v6 n => ipv6Chars n

def IPAddr.version : IPAddr → Nat
  | .v4 _ => 4
  | .v6 _ => 6

def IPAddr.toInt : IPAddr → Nat
  | .v4 n => n
  | .v6 n => n

/-- The invariant `ip_address` establishes: the integer fits the
version's width. -/
def addrOk : IPAddr → Prop
  | .v4 n => n < 2 ^ 32
  | .v6 n => n < 2 ^ 128

/-- A parsed network: version, masked network address, prefix length. -/
structure IPNet where
  version : Nat
  addr : Nat
  plen : Nat
deriving Repr, DecidableEq

/-- The invariant `ip_network(..., strict=False)` establishes: a known
version, an in-range masked address and an in-range prefix length. -/
def netOk (net : IPNet) : Prop :=
  (net.version = 4 ∨ net.version = 6) ∧
  net.addr < 2 ^ (if net.version = 4 then 32 else 128) ∧
  net.addr / 2 ^ ((if net.version = 4 then 32 else 128) - net.plen) *
    2 ^ ((if net.version = 4 then 32 else 128) - net.plen) = net.addr ∧
  net.plen ≤ (if net.version = 4 then 32 else 128)

/-- Width in bits of one version. -/
def widthOf (version : Nat) : Nat := if version = 4 then 32 else 128

/-- Clear the low `w - p` bits of `n` (network address of `n` under prefix
length `p` at width `w`). -/
def maskHigh (w p n : Nat) : Nat := n / 2 ^ (w - p) * 2 ^ (w - p)

/-- CPython `_prefix_from_prefix_string`: ASCII digits only, value within
`0 .. maxlen`. -/
def parsePlen (maxlen : Nat) (cs : List Char) : Option Nat :=
  match cs with
  | [] => none
  | _ =>
    if cs.all isDigitChar then
      let v := decValue cs
      if v ≤ maxlen then some v else none
    else none

/-- Trailing zero bits of `n`, at most `fuel`. -/
def ctzAux : Nat → Nat → Nat
  | 0, _ => 0
  | fuel + 1, n => if n % 2 = 1 then 0 else 1 + ctzAux fuel (n / 2)

/-- CPython `_count_righthand_zero_bits(number, bits)`:
`bits` when `number = 0`, else `min bits (trailing zeros)`. -/
def countRightZeroBits (n bits : Nat) : Nat :=
  if n = 0 then bits else min bits (ctzAux bits n)

/-- CPython `_prefix_from_ip_int`: accept only a contiguous high-ones mask
and return its prefix length. -/
def plenFromIpInt (maxlen n : Nat) : Option Nat :=
  let tz := countRightZeroBits n maxlen
  let plen := maxlen - tz
  let leadingOnes := n / 2 ^ tz
  if leadingOnes = 2 ^ plen - 1 then some plen else none

/-- CPython `_prefix_from_ip_string`: parse as an address of the version,
then accept it as a netmask, else as a hostmask. -/
def plenFromIpChars (version : Nat) (cs : List Char) : Option Nat :=
  let maxlen := widthOf version
  let parsed := if version = 4 then parseIPv4 cs else parseIPv6 cs
  match parsed with
  | none => none
  | some n =>
    match plenFromIpInt maxlen n with
    | some p => some p
    | none => plenFromIpInt maxlen (2 ^ maxlen - 1 - n)

/-- CPython `_make_netmask` on a string argument: a decimal prefix length;
only `IPv4Network` falls back to a dotted netmask/hostmask
(`IPv6Network._make_netmask` accepts prefix strings only). -/
def parseNetmask (version : Nat) (cs : List Char) : Option Nat :=
  match parsePlen (widthOf version) cs with
  | some p => some p
  | none => if version = 4 then plenFromIpChars version cs else none

/-- CPython `_split_addr_prefix` + `IPv4Network`/`IPv6Network` with
`strict=False` for one version: at most one `'/'`; absent prefix means the
full width; host bits are masked. -/
def parseNetV (version : Nat) (cs : List Char) : Option IPNet :=
  let pieces := splitOnChar '/' cs
  match pieces with
  | [a] => do
    let n ← (if version = 4 then parseIPv4 a else parseIPv6 a)
    pure ⟨version, n, widthOf version⟩
  | [a, p] => do
    let n ← (if version = 4 then parseIPv4 a else parseIPv6 a)
    let plen ← parseNetmask version p
    pure ⟨version, maskHigh (widthOf version) plen n, plen⟩
  | _ => none

/-- CPython `ipaddress.ip_network(value, strict=False)`: IPv4 first, then
IPv6. -/
def parseIPNet (cs : List Char) : Option IPNet :=
  match parseNetV 4 cs with
  | some net => some net
  | none => parseNetV 6 cs

/-- `str()` of a network: masked network address, `'/'`, prefix length. -/
def netChars (net : IPNet) : List Char :=
  (if net.version = 4 then ipv4Chars net.addr else ipv6Chars net.addr) ++
    '/' :: decChars 3 net.plen

/-- CPython `_BaseNetwork.__contains__` for an address operand: `False`
across versions, else netmask equality. -/
def netContainsAddr (net : IPNet) (a : IPAddr) : Bool :=
  if net.version ≠ a.version then false
  else maskHigh (widthOf net.version) net.plen a.toInt = net.addr

/-- CPython `subnet_of`: raises `TypeError` across versions (modelled as
`none`), else network-range inclusion. -/
def subnetOf (a b : IPNet) : Option Bool :=
  if a.version ≠ b.version then none
  else
    let w := widthOf a.version
    some (decide (b.addr ≤ a.addr ∧
      a.addr + 2 ^ (w - a.plen) - 1 ≤ b.addr + 2 ^ (w - b.plen) - 1))

/-! ### Regexes of `validation.py`

`DOMAIN_REGEX = ^(?!-)[a-zA-Z0-9-]{1,63}(?<!-)(\.[a-zA-Z0-9-]{1,63})*\.[a-zA-Z]{2,}$`
is embedded with backtracking semantics: a string matches iff SOME
decomposition into the regex pieces exists.  The piece matchers below
enumerate every remainder a piece can leave. -/

def isLabelChar (c : Char) : Bool := isAlphaChar c || isDigitChar c || c = '-'

/-- Remainders of `(?!-)[a-zA-Z0-9-]{1,63}(?<!-)`: consume `k ∈ [1,63]`
label characters whose first and last are not `'-'`. -/
def firstLabelRems (cs : List Char) : List (List Char) :=
  (List.range 63).filterMap (fun k0 =>
    let k := k0 + 1
    let pre := cs.take k
    if pre.length = k ∧ pre.all isLabelChar ∧ pre.head? ≠ some '-' ∧
        pre.getLast? ≠ some '-' then
      some (cs.drop k)
    else none)

/-- Remainders of one group `\.[a-zA-Z0-9-]{1,63}`. -/
def groupRems (cs : List Char) : List (List Char) :=
  match cs with
  | [] => []
  | c :: rest =>
    if c = '.' then
      (List.range 63).filterMap (fun k0 =>
        let k := k0 + 1
        let pre := rest.take k
        if pre.length = k ∧ pre.all isLabelChar then some (rest.drop k) else none)
    else []

/-- Remainders of `(\.[a-zA-Z0-9-]{1,63})*` (star closure); every group
consumes at least two characters so `fuel = cs.length` suffices. -/
def starRems : Nat → List Char → List (List Char)
  | 0, cs => [cs]
  | fuel + 1, cs => cs :: (groupRems cs).flatMap (starRems fuel)

/-- `\.[a-zA-Z]{2,}$`. -/
def finalLabelOk (cs : List Char) : Bool :=
  match cs with
  | c :: rest => c = '.' && rest.length ≥ 2 && rest.all isAlphaChar
  | [] => false

/-- `DOMAIN_REGEX.match(value)` (anchored whole-match succeeds). -/
def domainMatch (cs : List Char) : Bool :=
  (firstLabelRems cs).any (fun r1 => (starRems r1.length r1).any finalLabelOk)

/-- `WILDCARD_REGEX.match(value)`: literal `*.` followed by the exact body
of `DOMAIN_REGEX`. -/
def wildcardMatch (cs : List Char) : Bool :=
  match cs with
  | '*' :: '.' :: rest => domainMatch rest
  | _ => false

/-- `MD5_REGEX`: exactly 32 hex characters. -/
def md5Match (cs : List Char) : Bool := cs.length = 32 && cs.all isHexChar

/-- `SHA1_REGEX`: exactly 40 hex characters. -/
def sha1Match (cs : List Char) : Bool := cs.length = 40 && cs.all isHexChar

/-- `SHA256_REGEX`: exactly 64 hex characters. -/
def sha256Match (cs : List Char) : Bool := cs.length = 64 && cs.all isHexChar

/-! ### `services/validation.py` -/

/-- `IOCType` of `models/ioc.py`. -/
inductive IOCType where
  | ip | domain | wildcard | md5 | sha1 | sha256
deriving Repr, DecidableEq

/-- `.value` of the string-backed enum member. -/
def IOCType.value : IOCType → List Char
  | .ip => "ip".data
  | .domain => "domain".data
  | .wildcard => "wildcard".data
  | .md5 => "md5".data
  | .sha1 => "sha1".data
  | .sha256 => "sha256".data

/-- `ExclusionType` of `models/exclusion.py`. -/
inductive ExclusionType where
  | ip | domain | cidr | wildcard
deriving Repr, DecidableEq

def ExclusionType.value : ExclusionType → List Char
  | .ip => "ip".data
  | .domain => "domain".data
  | .cidr => "cidr".data
  | .wildcard => "wildcard".data

/-- An `Exclusion` row. -/
structure Exclusion where
  id : Nat
  value : List Char
  type : ExclusionType
  reason : Option (List Char)
  isBuiltin : Bool
deriving Repr, DecidableEq

/-- `ExclusionMatch` dataclass. -/
structure ExclusionMatch where
  exclusionId : Nat
  value : List Char
  reason : Option (List Char)
deriving Repr, DecidableEq

inductive VErr where
  | empty
  | invalid
deriving Repr, DecidableEq

/-- `validate_ioc`: strip; reject empty; single IP; CIDR network; SHA256;
SHA1; MD5; wildcard; domain; else error. -/
def validateIoc (value : List Char) : Except VErr (List Char × IOCType) :=
  let v := pyStrip value
  if v = [] then .error .empty
  else
    match parseIPAddress v with
    | some ip => .ok (addrChars ip, .ip)
    | none =>
      match parseIPNet v with
      | some network => .ok (netChars network, .ip)
      | none =>
        if sha256Match v then .ok (pyLower v, .sha256)
        else if sha1Match v then .ok (pyLower v, .sha1)
        else if md5Match v then .ok (pyLower v, .md5)
        else if wildcardMatch v then .ok (pyLower v, .wildcard)
        else if domainMatch v then .ok (pyLower v, .domain)
        else .error .invalid

/-- `is_ioc_type_allowed(ioc_type, list_type)`, both as the strings the
callers pass. -/
def isIocTypeAllowed (iocType listType : List Char) : Bool :=
  if listType = "mixed".data then true
  else if listType = "ip".data then iocType = "ip".data
  else if listType = "domain".data then
    iocType = "domain".data || iocType = "wildcard".data
  else if listType = "hash".data then
    iocType = "md5".data || iocType = "sha1".data || iocType = "sha256".data
  else false

/-- A `TypeError` escaping the matcher (`subnet_of` across IP versions is
not a `ValueError` and is caught nowhere). -/
inductive MatchErr where
  | typeError
deriving Repr, DecidableEq

/-- `_matches_exclusion(value, ioc_type, exclusion)` of `validation.py`
(the live path); `value` arrives already lowercased from
`check_exclusions`. -/
def matchesExclusion (value iocType : List Char) (exclusion : Exclusion) :
    Except MatchErr Bool :=
  -- TLD check - domain exactly matches exclusion value
  if exclusion.type = ExclusionType.domain ∧ iocType = "domain".data ∧
      value = pyLower exclusion.value then
    .ok true
  else if exclusion.type = ExclusionType.cidr ∧ iocType = "ip".data then
    -- CIDR check - IP falls within network
    match parseIPNet exclusion.value with
    | none => .ok false
    | some network =>
      match parseIPAddress value with
      | some ip => .ok (netContainsAddr network ip)
      | none =>
        match parseIPNet value with
        | none => .ok false
        | some valueNetwork =>
          match subnetOf valueNetwork network with
          | none => .error .typeError
          | some b => .ok b
  else if exclusion.type = ExclusionType.wildcard ∧ iocType = "domain".data then
    -- Wildcard check - domain ends with pattern
    match pyLower exclusion.value with
    | '*' :: '.' :: suffixRest => .ok (('.' :: suffixRest).isSuffixOf value)
    | _ => .ok false
  else if exclusion.type = ExclusionType.ip ∧ iocType = "ip".data then
    -- Exact IP match (note: the stored exclusion value is NOT lowercased here)
    .ok (value = exclusion.value)
  else
    .ok false

/-- The scan of `check_exclusions` over the rule list. -/
def checkExclusionsLoop (valueLower iocType : List Char) :
    List Exclusion → Except MatchErr (Option ExclusionMatch)
  | [] => .ok none
  | excl :: rest =>
    match matchesExclusion valueLower iocType excl with
    | .error e => .error e
    | .ok true => .ok (some ⟨excl.id, excl.value, excl.reason⟩)
    | .ok false => checkExclusionsLoop valueLower iocType rest

/-- `check_exclusions(value, ioc_type, exclusions)`. -/
def checkExclusions (value iocType : List Char) (exclusions : List Exclusion) :
    Except MatchErr (Option ExclusionMatch) :=
  checkExclusionsLoop (pyLower value) iocType exclusions

/-! ### `services/exclusion_service.py` -/

/-- `_ioc_matches_exclusion(ioc_value, ioc_type, excl_value, excl_type)` —
the preview/purge matcher.  Faithfully duplicated from its own source, not
shared with `matchesExclusion`. -/
def iocMatchesExclusion (iocValue iocType exclValue exclType : List Char) :
    Except MatchErr Bool :=
  let exclValueLower := pyLower exclValue
  -- CIDR check
  if exclType = "cidr".data ∧ iocType = "ip".data then
    match parseIPNet exclValueLower with
    | none => .ok false
    | some network =>
      match parseIPAddress iocValue with
      | some ip => .ok (netContainsAddr network ip)
      | none =>
        match parseIPNet iocValue with
        | none => .ok false
        | some iocNetwork =>
          match subnetOf iocNetwork network with
          | none => .error .typeError
          | some b => .ok b
  -- Wildcard domain check
  else if exclType = "wildcard".data ∧
      (iocType = "domain".data ∨ iocType = "wildcard".data) then
    match exclValueLower with
    | '*' :: '.' :: suffixRest => .ok (('.' :: suffixRest).isSuffixOf iocValue)
    | _ => .ok false
  -- Exact domain match
  else if exclType = "domain".data ∧ iocType = "domain".data then
    .ok (iocValue = exclValueLower)
  -- Exact IP match
  else if exclType = "ip".data ∧ iocType = "ip".data then
    .ok (iocValue = exclValueLower)
  else
    .ok false

/-- `detect_exclusion_type(value)`. -/
def detectExclusionType (value : List Char) : Option (List Char) :=
  let v := pyLower (pyStrip value)
  match parseIPAddress v with
  | some _ => some "ip".data
  | none =>
    match parseIPNet v with
    | some _ =>
      -- Only return cidr if it's actually a network (has /)
      if v.contains '/' then some "cidr".data else some "ip".data
    | none =>
      if ('*' :: '.' :: []).isPrefixOf v then some "wildcard".data
      else if v.contains '.' ∧ v.head? ≠ some '.' then some "domain".data
      else none

/-! ### Storage rows (`models/`) and the membership engine
(`services/ioc_service.py`, `api/lists.py`)

A database state is a record of row lists.  Autoincrement ids come from
`nextId`.  Timestamps are not modelled (no claim mentions them). -/

/-- An `IOC` row; `type` holds the string value the service stores
(`ioc_type.value`). -/
structure IOCRow where
  id : Nat
  value : List Char
  type : List Char
deriving Repr, DecidableEq

/-- A `List` row. -/
structure ListRow where
  id : Nat
  name : List Char
  slug : List Char
  description : Option (List Char)
  listType : List Char
  tags : Option (List (List Char))
deriving Repr, DecidableEq

/-- A `ListIOC` membership row. -/
structure LinkRow where
  id : Nat
  listId : Nat
  iocId : Nat
  addedBy : Option (List Char)
deriving Repr, DecidableEq

/-- `IOCAuditAction`. -/
inductive AuditAction where
  | created | addedToList | removedFromList | comment | deleted
deriving Repr, DecidableEq

/-- An `IOCAuditLog` row. -/
structure AuditRow where
  id : Nat
  iocId : Nat
  action : AuditAction
  listId : Option Nat
  performedBy : Option (List Char)
deriving Repr, DecidableEq

/-- An `IOCComment` row. -/
structure CommentRow where
  id : Nat
  iocId : Nat
  comment : List Char
  source : Option (List Char)
deriving Repr, DecidableEq

/-- The relational store visible to the membership engine. -/
structure DB where
  lists : List ListRow
  iocs : List IOCRow
  links : List LinkRow
  comments : List CommentRow
  audits : List AuditRow
  exclusions : List Exclusion
  nextId : Nat
deriving Repr, DecidableEq

/-- The typed error taxonomy `add_ioc` can raise.  `typeError` is the
uncaught `TypeError` escaping the exclusion matcher; `integrityError` the
uncaught storage unique-constraint violation at flush. -/
inductive AddErr where
  | validation (e : VErr)
  | excluded (m : ExclusionMatch)
  | listNotFound (missing : List (List Char))
  | listTypeMismatch (iocType listType : List Char)
  | typeError
  | integrityError
deriving Repr, DecidableEq

/-- One step of Python dict building: an existing key's value is replaced
in place, a new key is appended. -/
def dictInsert (d : List ListRow) (l : ListRow) : List ListRow :=
  if d.any (fun x => x.slug = l.slug) then
    d.map (fun x => if x.slug = l.slug then l else x)
  else d ++ [l]

/-- The dict `{lst.slug: lst for lst in query}`: keyed by slug, later rows
overwrite earlier values. -/
def dictBySlug (ls : List ListRow) : List ListRow := ls.foldl dictInsert []

/-- Rows returned by `select(List).where(List.slug.in_(list_slugs))`. -/
def foundLists (db : DB) (listSlugs : List (List Char)) : List ListRow :=
  db.lists.filter (fun l => listSlugs.contains l.slug)

/-- The resolved slug-keyed dict of target lists. -/
def resolvedLists (db : DB) (listSlugs : List (List Char)) : List ListRow :=
  dictBySlug (foundLists db listSlugs)

/-- `set(list_slugs) - set(lists.keys())`. -/
def missingSlugs (db : DB) (listSlugs : List (List Char)) : List (List Char) :=
  (listSlugs.filter
    (fun s => ¬ (foundLists db listSlugs).any (fun l => l.slug = s))).dedup

/-- Links already attached to one IOC (`ioc.list_iocs`). -/
def linksOfIoc (db : DB) (iocId : Nat) : List LinkRow :=
  db.links.filter (fun l => l.iocId = iocId)

/-- The link-creation loop of `add_ioc`: for every resolved list not yet
linked, append a `ListIOC` row and an added-to-list audit row. -/
def addLinks (iocId : Nat) (addedBy : Option (List Char))
    (existingListIds : List Nat) : List ListRow → Nat →
    List LinkRow × List AuditRow × Nat
  | [], nid => ([], [], nid)
  | lst :: rest, nid =>
    if existingListIds.contains lst.id then
      addLinks iocId addedBy existingListIds rest nid
    else
      let (ls, as_, nid') := addLinks iocId addedBy existingListIds rest (nid + 2)
      (⟨nid, lst.id, iocId, addedBy⟩ :: ls,
       ⟨nid + 1, iocId, .addedToList, some lst.id, addedBy⟩ :: as_, nid')

/-- `add_ioc` of `services/ioc_service.py`.

`raceIocs` are rows committed by a concurrent transaction between this
call's indicator lookup and its flush: the lookup does not see them, the
flush's unique constraint does.  The source wraps none of this in a
`try/except IntegrityError`, so a value collision surfaces as
`integrityError` (the transaction rolls back: the state is returned
unchanged).  On every error the returned state equals the input state,
mirroring the single-transaction rollback. -/
def addIoc (db : DB) (value : List Char) (listSlugs : List (List Char))
    (comment : Option (List Char)) (source : Option (List Char))
    (addedBy : Option (List Char)) (raceIocs : List IOCRow) :
    Except AddErr IOCRow × DB :=
  -- Validate IOC
  match validateIoc value with
  | .error e => (.error (.validation e), db)
  | .ok (normalizedValue, iocType) =>
    -- Check exclusions
    match checkExclusions normalizedValue iocType.value db.exclusions with
    | .error _ => (.error .typeError, db)
    | .ok (some m) => (.error (.excluded m), db)
    | .ok none =>
      -- Get target lists
      let lists := resolvedLists db listSlugs
      if missingSlugs db listSlugs ≠ [] then
        (.error (.listNotFound (missingSlugs db listSlugs)), db)
      else
        -- Validate IOC type is allowed for each list
        match lists.find? (fun lst => ¬ isIocTypeAllowed iocType.value lst.listType) with
        | some lst => (.error (.listTypeMismatch iocType.value lst.listType), db)
        | none =>
          -- Get or create IOC
          match db.iocs.find? (fun i => i.value = normalizedValue) with
          | some ioc =>
            -- existing indicator: link the missing lists, add the comment
            let existingListIds := (linksOfIoc db ioc.id).map (fun l => l.listId)
            let (newLinks, newAudits, nid) :=
              addLinks ioc.id addedBy existingListIds lists db.nextId
            let (newComments, nid') :=
              match comment with
              | some c => ([(⟨nid, ioc.id, c, source⟩ : CommentRow)], nid + 1)
              | none => ([], nid)
            (.ok ioc,
             { db with
                iocs := db.iocs ++ raceIocs,
                links := db.links ++ newLinks,
                audits := db.audits ++ newAudits,
                comments := db.comments ++ newComments,
                nextId := nid' })
          | none =>
            -- new indicator: the flush INSERT hits the unique constraint
            -- if a concurrent transaction created the value first
            if raceIocs.any (fun i => i.value = normalizedValue) then
              (.error .integrityError, db)
            else
              let ioc : IOCRow := ⟨db.nextId, normalizedValue, iocType.value⟩
              let createdAudit : AuditRow :=
                ⟨db.nextId + 1, ioc.id, .created, none, addedBy⟩
              let (newLinks, newAudits, nid) :=
                addLinks ioc.id addedBy [] lists (db.nextId + 2)
              let (newComments, nid') :=
                match comment with
                | some c => ([(⟨nid, ioc.id, c, source⟩ : CommentRow)], nid + 1)
                | none => ([], nid)
              (.ok ioc,
               { db with
                  iocs := db.iocs ++ [ioc] ++ raceIocs,
                  links := db.links ++ newLinks,
                  audits := db.audits ++ [createdAudit] ++ newAudits,
                  comments := db.comments ++ newComments,
                  nextId := nid' })

/-! ### `update_list` of `api/lists.py` -/

/-- `List.generate_slug`: `re.sub(r"[^a-z0-9]", "", name.lower())`. -/
def generateSlug (name : List Char) : List Char :=
  (pyLower name).filter
    (fun c => (97 ≤ c.toNat && c.toNat ≤ 122) || isDigitChar c)

/-- The `@validates("slug")` check: `^[a-z0-9]+$`. -/
def slugOk (slug : List Char) : Bool :=
  slug ≠ [] && slug.all
    (fun c => (97 ≤ c.toNat && c.toNat ≤ 122) || isDigitChar c)

/-- `ListUpdate` request body (all fields optional). -/
structure ListUpdate where
  name : Option (List Char)
  description : Option (List Char)
  tags : Option (List (List Char))
  listType : Option (List Char)
deriving Repr, DecidableEq

/-- `update_list` error outcomes: 404, the 400 type-change rejection, the
409 duplicate slug, and the uncaught `ValueError` of the slug validator. -/
inductive UpdErr where
  | notFound
  | typeChangeInvalid
  | duplicateSlug
  | invalidSlug
deriving Repr, DecidableEq

/-- The member `type` strings of one list (`list_obj.list_iocs` joined to
their IOCs). -/
def memberTypes (db : DB) (listId : Nat) : List (List Char) :=
  (db.links.filter (fun l => l.listId = listId)).filterMap
    (fun l => (db.iocs.find? (fun i => i.id = l.iocId)).map (fun i => i.type))

/-- `update_list` of `api/lists.py`: resolve by slug; validate a list-type
change against current members; regenerate the slug from a new name
(rejecting duplicates) — the slug DOES change when the name does; apply
the remaining field updates. -/
def updateList (db : DB) (slug : List Char) (data : ListUpdate) :
    Except UpdErr ListRow × DB :=
  match db.lists.find? (fun l => l.slug = slug) with
  | none => (.error .notFound, db)
  | some listObj =>
    -- Validate list_type change won't invalidate existing IOCs
    let typeInvalid : Bool :=
      match data.listType with
      | some t =>
        t ≠ listObj.listType &&
          (memberTypes db listObj.id).any (fun ty => ¬ isIocTypeAllowed ty t)
      | none => false
    if typeInvalid then (.error .typeChangeInvalid, db)
    else
      let slugStep : Except UpdErr (List Char) :=
        match data.name with
        | some n =>
          let newSlug := generateSlug n
          if newSlug ≠ listObj.slug then
            if db.lists.any (fun l => l.slug = newSlug) then .error .duplicateSlug
            else if ¬ slugOk newSlug then .error .invalidSlug
            else .ok newSlug
          else .ok listObj.slug
        | none => .ok listObj.slug
      match slugStep with
      | .error e => (.error e, db)
      | .ok newSlug =>
        let updated : ListRow :=
          { listObj with
              slug := newSlug,
              name := data.name.getD listObj.name,
              description := (data.description.map some).getD listObj.description,
              tags := (data.tags.map some).getD listObj.tags,
              listType := data.listType.getD listObj.listType }
        (.ok updated,
         { db with lists := db.lists.map (fun l => if l.id = listObj.id then updated else l) })

/-! ## Lemmas: splitting and joining -/

theorem splitOnChar_ne_nil (sep : Char) (cs : List Char) :
    splitOnChar sep cs ≠ [] := by
  induction cs with
  | nil => simp [splitOnChar]
  | cons c cs ih =>
    by_cases h : c = sep
    · simp [splitOnChar, h]
    · simp only [splitOnChar, if_neg h]
      cases hs : splitOnChar sep cs with
      | nil => simp
      | cons p ps => simp

theorem splitOnChar_no_sep (sep : Char) (xs : List Char) (h : sep ∉ xs) :
    splitOnChar sep xs = [xs] := by
  induction xs with
  | nil => rfl
  | cons c cs ih =>
    have hc : c ≠ sep := fun he => h (he ▸ List.mem_cons_self c cs)
    have hrest : sep ∉ cs := fun hm => h (List.mem_cons_of_mem c hm)
    simp only [splitOnChar, if_neg hc, ih hrest]

theorem splitOnChar_append (sep : Char) (xs ys : List Char) (h : sep ∉ xs) :
    splitOnChar sep (xs ++ sep :: ys) = xs :: splitOnChar sep ys := by
  induction xs with
  | nil => simp [splitOnChar]
  | cons c cs ih =>
    have hc : c ≠ sep := fun he => h (he ▸ List.mem_cons_self c cs)
    have hrest : sep ∉ cs := fun hm => h (List.mem_cons_of_mem c hm)
    simp only [List.cons_append, splitOnChar, if_neg hc]
    rw [show cs.append (sep :: ys) = cs ++ sep :: ys from rfl, ih hrest]

theorem splitOnChar_joinSep (sep : Char) (parts : List (List Char))
    (hne : parts ≠ []) (hs : ∀ p ∈ parts, sep ∉ p) :
    splitOnChar sep (joinSep sep parts) = parts := by
  induction parts with
  | nil => exact absurd rfl hne
  | cons p ps ih =>
    cases ps with
    | nil =>
      simp only [joinSep]
      exact splitOnChar_no_sep sep p (hs p (List.mem_cons_self p []))
    | cons q qs =>
      have h1 : sep ∉ p := hs p (List.mem_cons_self p _)
      have h2 : ∀ r ∈ q :: qs, sep ∉ r := fun r hr => hs r (List.mem_cons_of_mem p hr)
      simp only [joinSep, splitOnChar_append sep p _ h1,
        ih (by simp) h2]

theorem splitOnChar_cover (sep : Char) (cs : List Char) (c : Char)
    (hc : c ∈ cs) : c = sep ∨ ∃ p ∈ splitOnChar sep cs, c ∈ p := by
  induction cs with
  | nil => cases hc
  | cons d ds ih =>
    by_cases hd : d = sep
    · rcases List.mem_cons.mp hc with h | h
      · exact Or.inl (h.trans hd)
      · rcases ih h with h' | ⟨p, hp, hcp⟩
        · exact Or.inl h'
        · exact Or.inr ⟨p, by simp [splitOnChar, hd, hp], hcp⟩
    · simp only [splitOnChar, if_neg hd]
      cases hs : splitOnChar sep ds with
      | nil => exact absurd hs (splitOnChar_ne_nil sep ds)
      | cons p ps =>
        rcases List.mem_cons.mp hc with h | h
        · exact Or.inr ⟨d :: p, by simp, by simp [h]⟩
        · rcases ih h with h' | ⟨q, hq, hcq⟩
          · exact Or.inl h'
          · rw [hs] at hq
            rcases List.mem_cons.mp hq with rfl | hq'
            · exact Or.inr ⟨d :: q, by simp, List.mem_cons_of_mem d hcq⟩
            · exact Or.inr ⟨q, by simp [hq'], hcq⟩

/-! ## Lemmas: digits, hextets and octets -/

theorem hexVal_lt_16 (c : Char) (h : isHexChar c = true) : hexVal c < 16 := by
  simp only [isHexChar, isDigitChar, Bool.or_eq_true, Bool.and_eq_true,
    decide_eq_true_eq] at h
  simp only [hexVal, isDigitChar, digitVal, Bool.and_eq_true, decide_eq_true_eq]
  split_ifs with h1 h2 <;> omega

theorem hexValue_reverse (l : List Char) : hexValue l.reverse = valRev l := by
  induction l with
  | nil => rfl
  | cons c cs ih =>
    simp only [List.reverse_cons, hexValue, List.foldl_append, List.foldl_cons,
      List.foldl_nil, valRev]
    rw [show List.foldl (fun a c => 16 * a + hexVal c) 0 cs.reverse =
      hexValue cs.reverse from rfl, ih]
    ring

theorem hexDigitChar_facts (d : Nat) (hd : d < 16) :
    hexVal (hexDigitChar d) = d ∧ isHexChar (hexDigitChar d) = true ∧
    hexDigitChar d ≠ ':' ∧ hexDigitChar d ≠ '.' := by
  interval_cases d <;> refine ⟨by decide, by decide, by decide, by decide⟩

theorem valRev_hexDigitsRev (fuel : Nat) :
    ∀ n, n < 16 ^ fuel → valRev (hexDigitsRev fuel n) = n := by
  induction fuel with
  | zero => intro n hn; interval_cases n; rfl
  | succ fuel ih =>
    intro n hn
    cases n with
    | zero => rfl
    | succ m =>
      have hmod : (m + 1) % 16 < 16 := Nat.mod_lt _ (by norm_num)
      have hdiv : (m + 1) / 16 < 16 ^ fuel := by
        rw [Nat.div_lt_iff_lt_mul (by norm_num)]
        calc m + 1 < 16 ^ (fuel + 1) := hn
        _ = 16 ^ fuel * 16 := by ring
      simp only [hexDigitsRev, valRev, (hexDigitChar_facts _ hmod).1, ih _ hdiv]
      omega

theorem hexDigitsRev_length (fuel : Nat) :
    ∀ n, (hexDigitsRev fuel n).length ≤ fuel := by
  induction fuel with
  | zero => intro n; simp [hexDigitsRev]
  | succ fuel ih =>
    intro n
    cases n with
    | zero => simp [hexDigitsRev]
    | succ m => simpa [hexDigitsRev] using ih ((m + 1) / 16)

theorem hexDigitsRev_hex (fuel : Nat) :
    ∀ n c, c ∈ hexDigitsRev fuel n →
      isHexChar c = true ∧ c ≠ ':' ∧ c ≠ '.' := by
  induction fuel with
  | zero => intro n c hc; simp [hexDigitsRev] at hc
  | succ fuel ih =>
    intro n c hc
    cases n with
    | zero => simp [hexDigitsRev] at hc
    | succ m =>
      simp only [hexDigitsRev, List.mem_cons] at hc
      rcases hc with rfl | hc
      · have h := hexDigitChar_facts ((m + 1) % 16) (Nat.mod_lt _ (by norm_num))
        exact ⟨h.2.1, h.2.2.1, h.2.2.2⟩
      · exact ih _ c hc

theorem hexChars4_ne_nil (h : Nat) : hexChars4 h ≠ [] := by
  unfold hexChars4
  split_ifs with h0
  · simp
  · cases h with
    | zero => exact absurd rfl h0
    | succ m => simp [hexDigitsRev]

theorem hexChars4_hex (h : Nat) (c : Char) (hc : c ∈ hexChars4 h) :
    isHexChar c = true ∧ c ≠ ':' ∧ c ≠ '.' := by
  unfold hexChars4 at hc
  split_ifs at hc with h0
  · simp only [List.mem_singleton] at hc
    exact ⟨by rw [hc]; decide, by rw [hc]; decide, by rw [hc]; decide⟩
  · exact hexDigitsRev_hex 4 h c (List.mem_reverse.mp hc)

theorem parseHextet_hexChars4 (h : Nat) (hh : h < 65536) :
    parseHextet (hexChars4 h) = some h := by
  by_cases h0 : h = 0
  · subst h0; decide
  · have hne := hexChars4_ne_nil h
    have hhex : (hexChars4 h).all isHexChar = true := by
      rw [List.all_eq_true]
      exact fun c hc => (hexChars4_hex h c hc).1
    have hlen : (hexChars4 h).length ≤ 4 := by
      unfold hexChars4
      rw [if_neg h0, List.length_reverse]
      exact hexDigitsRev_length 4 h
    have hval : hexValue (hexChars4 h) = h := by
      unfold hexChars4
      rw [if_neg h0, hexValue_reverse]
      exact valRev_hexDigitsRev 4 h (by norm_num; omega)
    rw [parseHextet, if_pos ⟨hne, hhex, hlen⟩, hval]

theorem hexValue_lt (cs : List Char) (hhex : cs.all isHexChar = true) :
    hexValue cs < 16 ^ cs.length := by
  suffices h : ∀ a, List.foldl (fun a c => 16 * a + hexVal c) a cs <
      (a + 1) * 16 ^ cs.length by
    have := h 0
    simpa [hexValue] using this
  induction cs with
  | nil => intro a; simp
  | cons c rest ih =>
    intro a
    simp only [List.all_cons, Bool.and_eq_true] at hhex
    have hc := hexVal_lt_16 c hhex.1
    have := ih hhex.2 (16 * a + hexVal c)
    calc List.foldl (fun a c => 16 * a + hexVal c) (16 * a + hexVal c) rest
        < (16 * a + hexVal c + 1) * 16 ^ rest.length := this
      _ ≤ (16 * (a + 1)) * 16 ^ rest.length :=
          Nat.mul_le_mul_right _ (by omega)
      _ = (a + 1) * 16 ^ (rest.length + 1) := by ring
      _ = (a + 1) * 16 ^ (c :: rest).length := by simp

theorem parseHextet_lt (cs : List Char) (h : Nat)
    (hp : parseHextet cs = some h) : h < 65536 := by
  unfold parseHextet at hp
  split_ifs at hp with hcond
  · have hb := hexValue_lt cs hcond.2.1
    have hle : (16 : Nat) ^ cs.length ≤ 16 ^ 4 :=
      Nat.pow_le_pow_right (by norm_num) hcond.2.2
    simp only [Option.some.injEq] at hp
    subst hp
    calc hexValue cs < 16 ^ cs.length := hb
      _ ≤ 16 ^ 4 := hle
      _ = 65536 := by norm_num

theorem parseHextet_hexChars (cs : List Char) (h : Nat)
    (hp : parseHextet cs = some h) :
    cs ≠ [] ∧ ∀ c ∈ cs, isHexChar c = true := by
  unfold parseHextet at hp
  split_ifs at hp with hcond
  · exact ⟨hcond.1, List.all_eq_true.mp hcond.2.1⟩

set_option maxRecDepth 20000 in
/-- Octet print/parse round trip, plus the character facts, by finite
check. -/
theorem parseOctet_decChars :
    ∀ o, o < 256 → parseOctet (decChars 3 o) = some o ∧
      decChars 3 o ≠ [] ∧ ∀ c ∈ decChars 3 o, isDigitChar c = true := by
  decide

theorem isDigitChar_ne (c : Char) (h : isDigitChar c = true) :
    c ≠ '.' ∧ c ≠ ':' ∧ c ≠ '/' ∧ c ≠ '*' := by
  refine ⟨?_, ?_, ?_, ?_⟩ <;> (intro he; subst he; exact absurd h (by decide))

theorem parseOctet_some (cs : List Char) (o : Nat)
    (hp : parseOctet cs = some o) :
    cs ≠ [] ∧ cs.all isDigitChar = true ∧ o ≤ 255 := by
  unfold parseOctet at hp
  split_ifs at hp with h1 h2 h3 h4
  · simp only [Option.some.injEq] at hp
    exact ⟨h1.1, h1.2, by omega⟩

/-! ## IPv4 round trip -/

theorem parseIPv4_ipv4Chars (n : Nat) (hn : n < 2 ^ 32) :
    parseIPv4 (ipv4Chars n) = some n := by
  have h1 := parseOctet_decChars (n / 16777216 % 256) (Nat.mod_lt _ (by norm_num))
  have h2 := parseOctet_decChars (n / 65536 % 256) (Nat.mod_lt _ (by norm_num))
  have h3 := parseOctet_decChars (n / 256 % 256) (Nat.mod_lt _ (by norm_num))
  have h4 := parseOctet_decChars (n % 256) (Nat.mod_lt _ (by norm_num))
  have nodot : ∀ m, m < 256 → '.' ∉ decChars 3 m := by
    intro m hm hmem
    have := (parseOctet_decChars m hm).2.2 _ hmem
    exact absurd this (by decide)
  have hsplit : splitOnChar '.' (ipv4Chars n) =
      [decChars 3 (n / 16777216 % 256), decChars 3 (n / 65536 % 256),
       decChars 3 (n / 256 % 256), decChars 3 (n % 256)] := by
    unfold ipv4Chars
    rw [splitOnChar_append _ _ _ (nodot _ (Nat.mod_lt _ (by norm_num))),
      splitOnChar_append _ _ _ (nodot _ (Nat.mod_lt _ (by norm_num))),
      splitOnChar_append _ _ _ (nodot _ (Nat.mod_lt _ (by norm_num))),
      splitOnChar_no_sep _ _ (nodot _ (Nat.mod_lt _ (by norm_num)))]
  simp only [parseIPv4, hsplit, h1.1, h2.1, h3.1, h4.1, Option.some_bind,
    Option.map_some', Option.some.injEq]
  omega

theorem parseIPv4_chars (cs : List Char) (n : Nat)
    (hp : parseIPv4 cs = some n) :
    ∀ c ∈ cs, isDigitChar c = true ∨ c = '.' := by
  intro c hc
  unfold parseIPv4 at hp
  split at hp
  next a b d e hsplit =>
    simp only [Option.bind_eq_some, Option.map_eq_some'] at hp
    obtain ⟨oa, ha, ob, hb, oc, hcq, od, he, -⟩ := hp
    rcases splitOnChar_cover '.' cs c hc with h | ⟨p, hp', hcp⟩
    · exact Or.inr h
    · rw [hsplit] at hp'
      simp only [List.mem_cons, List.mem_singleton, List.not_mem_nil,
        or_false] at hp'
      have hall : p.all isDigitChar = true := by
        rcases hp' with rfl | rfl | rfl | rfl
        · exact (parseOctet_some _ _ ha).2.1
        · exact (parseOctet_some _ _ hb).2.1
        · exact (parseOctet_some _ _ hcq).2.1
        · exact (parseOctet_some _ _ he).2.1
      exact Or.inl (List.all_eq_true.mp hall c hcp)
  next => cases hp

theorem parseIPv4_lt (cs : List Char) (n : Nat)
    (hp : parseIPv4 cs = some n) : n < 2 ^ 32 := by
  unfold parseIPv4 at hp
  split at hp
  next a b d e hsplit =>
    simp only [Option.bind_eq_some, Option.map_eq_some'] at hp
    obtain ⟨oa, ha, ob, hb, oc, hcq, od, he, hres⟩ := hp
    have b1 := (parseOctet_some _ _ ha).2.2
    have b2 := (parseOctet_some _ _ hb).2.2
    have b3 := (parseOctet_some _ _ hcq).2.2
    have b4 := (parseOctet_some _ _ he).2.2
    omega
  next => cases hp

/-! ## IPv6 round trip: recomposition arithmetic -/

theorem foldl_hextets (L : List Nat) :
    ∀ a, L.foldl (fun a h => a * 65536 + h) a =
      a * 65536 ^ L.length + recompose L := by
  induction L with
  | nil => intro a; simp [recompose]
  | cons h T ih =>
    intro a
    simp only [List.foldl_cons, recompose, Nat.zero_mul, Nat.zero_add]
    simp only [recompose] at ih
    rw [ih (a * 65536 + h), ih h]
    simp only [List.length_cons]
    ring

theorem recompose_append (A B : List Nat) :
    recompose (A ++ B) = recompose A * 65536 ^ B.length + recompose B := by
  unfold recompose
  rw [List.foldl_append]
  exact foldl_hextets B _

theorem recompose_replicate_zero (k : Nat) :
    recompose (List.replicate k 0) = 0 := by
  induction k with
  | zero => rfl
  | succ m ih =>
    rw [List.replicate_succ]
    unfold recompose at *
    simp [ih]

theorem hextetsOf_length (n : Nat) : (hextetsOf n).length = 8 := rfl

theorem hextetsOf_lt (n : Nat) : ∀ h ∈ hextetsOf n, h < 65536 := by
  intro h hh
  simp only [hextetsOf, List.mem_cons, List.not_mem_nil, or_false] at hh
  rcases hh with rfl | rfl | rfl | rfl | rfl | rfl | rfl | rfl <;>
    exact Nat.mod_lt _ (by norm_num)

theorem recompose_hextetsOf (n : Nat) (hn : n < 2 ^ 128) :
    recompose (hextetsOf n) = n := by
  simp only [hextetsOf, recompose, List.foldl_cons, List.foldl_nil]
  omega

theorem mapM_parseHextet_map (L : List Nat) (hL : ∀ h ∈ L, h < 65536) :
    (L.map hexChars4).mapM parseHextet = some L := by
  induction L with
  | nil => rfl
  | cons h T ih =>
    rw [List.map_cons, List.mapM_cons,
      parseHextet_hexChars4 h (hL h (List.mem_cons_self h T)),
      ih (fun x hx => hL x (List.mem_cons_of_mem h hx))]
    rfl

/-! ## IPv6 round trip: the skip-index scan on shaped part lists -/

theorem filter_range_nil (n : Nat) (p : Nat → Bool) :
    (∀ x, x < n → p x = false) → (List.range n).filter p = [] := by
  induction n with
  | zero => intro _; rfl
  | succ m ih =>
    intro hp
    rw [List.range_succ, List.filter_append]
    rw [ih (fun x hx => hp x (Nat.lt_succ_of_lt hx))]
    simp [hp m (Nat.lt_succ_self m)]

theorem filter_range_single (n k : Nat) (p : Nat → Bool) :
    k < n → (∀ x, x < n → (p x = true ↔ x = k)) →
    (List.range n).filter p = [k] := by
  induction n with
  | zero => intro hk _; cases hk
  | succ m ih =>
    intro hk hp
    rw [List.range_succ, List.filter_append]
    by_cases hkm : k = m
    · rw [filter_range_nil m p (fun x hx => by
        rcases hq : p x with _ | _
        · rfl
        · exact absurd ((hp x (Nat.lt_succ_of_lt hx)).mp hq)
            (by omega))]
      have hpm : p m = true := (hp m (Nat.lt_succ_self m)).mpr hkm.symm
      simp [hpm, hkm]
    · have hk' : k < m := by omega
      rw [ih hk' (fun x hx => hp x (Nat.lt_succ_of_lt hx))]
      have hm : p m = false := by
        rcases hq : p m with _ | _
        · rfl
        · exact absurd ((hp m (Nat.lt_succ_self m)).mp hq) (fun h => hkm h.symm)
      simp [hm]

theorem RunInv_mk (S : List (List Char)) (i : Nat) (bs : Option Nat)
    (bl : Nat) (cs : Option Nat) (cl : Nat) :
    RunInv S i ⟨bs, bl, cs, cl⟩ ↔
      ((cs = none → cl = 0) ∧
       (∀ s, cs = some s → s + cl = i ∧
         (∀ j, s ≤ j → j < i → S.get? j = some ['0'])) ∧
       (∀ b, bs = some b → b + bl ≤ i ∧
         (∀ j, b ≤ j → j < b + bl → S.get? j = some ['0'])) ∧
       (bs = none → bl = 0)) := Iff.rfl

theorem runStep_inv (S : List (List Char)) (i : Nat) (st : RunState)
    (z : Bool) (hinv : RunInv S i st)
    (hz : z = true → S.get? i = some ['0']) :
    RunInv S (i + 1) (runStep st i z) := by
  obtain ⟨st_bs, st_bl, st_cs, st_cl⟩ := st
  rw [RunInv_mk] at hinv
  obtain ⟨h1, h2, h3, h4⟩ := hinv
  cases z with
  | false =>
    simp only [runStep, Bool.false_eq_true, if_false]
    rw [RunInv_mk]
    exact ⟨fun _ => rfl, fun s hs => Option.noConfusion hs,
      fun b hb => ((h3 b hb).imp (fun h => by omega) id),
      fun hb => h4 hb⟩
  | true =>
    have hget : S.get? i = some ['0'] := hz rfl
    cases hcs : st_cs with
    | none =>
      have hcl : st_cl = 0 := h1 hcs
      have hcur : ∀ s : Nat, (some i : Option Nat) = some s →
          s + (st_cl + 1) = i + 1 ∧
          (∀ j, s ≤ j → j < i + 1 → S.get? j = some ['0']) := by
        intro s hs
        cases hs
        refine ⟨by omega, fun j hj1 hj2 => ?_⟩
        have hji : j = i := by omega
        rw [hji, hget]
      subst hcs
      simp only [runStep, eq_self_iff_true, if_true]
      split_ifs with hgt
      · rw [RunInv_mk]
        refine ⟨fun h => Option.noConfusion h, hcur, fun b hb => ?_,
          fun h => Option.noConfusion h⟩
        obtain ⟨he, hz'⟩ := hcur b hb
        exact ⟨by omega, fun j hj1 hj2 => hz' j hj1 (by omega)⟩
      · rw [RunInv_mk]
        exact ⟨fun h => Option.noConfusion h, hcur,
          fun b hb => ((h3 b hb).imp (fun h => by omega) id),
          fun hb => h4 hb⟩
    | some s0 =>
      obtain ⟨hsum, hzeros⟩ := h2 s0 hcs
      have hcur : ∀ s : Nat, (some s0 : Option Nat) = some s →
          s + (st_cl + 1) = i + 1 ∧
          (∀ j, s ≤ j → j < i + 1 → S.get? j = some ['0']) := by
        intro s hs
        cases hs
        refine ⟨by omega, fun j hj1 hj2 => ?_⟩
        by_cases hji : j = i
        · rw [hji, hget]
        · exact hzeros j hj1 (by omega)
      subst hcs
      simp only [runStep, eq_self_iff_true, if_true]
      split_ifs with hgt
      · rw [RunInv_mk]
        refine ⟨fun h => Option.noConfusion h, hcur, fun b hb => ?_,
          fun h => Option.noConfusion h⟩
        obtain ⟨he, hz'⟩ := hcur b hb
        exact ⟨by omega, fun j hj1 hj2 => hz' j hj1 (by omega)⟩
      · rw [RunInv_mk]
        exact ⟨fun h => Option.noConfusion h, hcur,
          fun b hb => ((h3 b hb).imp (fun h => by omega) id),
          fun hb => h4 hb⟩

theorem scanRuns_inv (S : List (List Char)) :
    ∀ (rest : List (List Char)) (i : Nat) (st : RunState),
    S.drop i = rest → i ≤ S.length → RunInv S i st →
    RunInv S S.length (scanRuns rest i st) := by
  intro rest
  induction rest with
  | nil =>
    intro i st hdrop hle hinv
    have hge : S.length ≤ i := by
      by_contra hlt
      push_neg at hlt
      have := List.drop_eq_nil_iff_le.mp hdrop
      omega
    have : i = S.length := by omega
    subst this
    exact hinv
  | cons e rest ih =>
    intro i st hdrop hle hinv
    have hget : S.get? i = some e := by
      have h0 := List.get?_drop S i 0
      rw [hdrop] at h0
      simpa using h0.symm
    have hdrop' : S.drop (i + 1) = rest := by
      rw [← List.drop_drop 1 i S, hdrop, List.drop_one]
      rfl
    have hlt : i < S.length := by
      by_contra h
      push_neg at h
      rw [List.drop_eq_nil_of_le h] at hdrop
      cases hdrop
    refine ih (i + 1) _ hdrop' (by omega) (runStep_inv S i st _ hinv ?_)
    intro hd
    rw [hget]
    have : e = ['0'] := of_decide_eq_true hd
    rw [this]

theorem bestRun_spec (S : List (List Char)) (bs bl : Nat)
    (hbr : bestRun S = (some bs, bl)) :
    bs + bl ≤ S.length ∧ ∀ j, bs ≤ j → j < bs + bl → S.get? j = some ['0'] := by
  have hinit : RunInv S 0 ⟨none, 0, none, 0⟩ :=
    (RunInv_mk S 0 none 0 none 0).mpr
      ⟨fun _ => rfl, fun s hs => Option.noConfusion hs, fun b hb => Option.noConfusion hb,
       fun _ => rfl⟩
  have hfin := scanRuns_inv S S 0 ⟨none, 0, none, 0⟩ (by simp)
    (Nat.zero_le _) hinit
  unfold bestRun at hbr
  simp only [Prod.mk.injEq] at hbr
  have := hfin.2.2.1 bs hbr.1
  rw [hbr.2] at this
  exact this

theorem joinSep_ne_nil (sep : Char) (p q : List (List Char)) (r : List Char)
    (h : p = r :: q) (hq : q ≠ []) : joinSep sep p ≠ [] := by
  subst h
  cases q with
  | nil => exact absurd rfl hq
  | cons a as => simp [joinSep]

theorem contains_eq_false_of_not_mem (p : List Char) (c : Char)
    (h : c ∉ p) : p.contains c = false := by
  simpa using h

theorem hexChars4_eq_zero (h : Nat) (hlt : h < 65536)
    (he : hexChars4 h = ['0']) : h = 0 := by
  have h1 := parseHextet_hexChars4 h hlt
  rw [he] at h1
  have h2 : parseHextet ['0'] = some 0 := by decide
  rw [h1] at h2
  exact (Option.some.injEq _ _ ▸ h2).symm ▸ rfl

theorem take_drop_replicate (l : List Nat) (k m : Nat)
    (hkm : k + m ≤ l.length)
    (hz : ∀ j, k ≤ j → j < k + m → l.get? j = some 0) :
    (l.drop k).take m = List.replicate m 0 := by
  apply List.ext_get?
  intro i
  by_cases him : i < m
  · rw [List.get?_take him, List.get?_drop]
    rw [hz (k + i) (by omega) (by omega)]
    rw [List.get?_eq_getElem?, List.getElem?_replicate, if_pos him]
  · have h1 : (List.replicate m 0).get? i = none := by
      rw [List.get?_eq_getElem?, List.getElem?_replicate, if_neg him]
    have h2 : ((l.drop k).take m).get? i = none := by
      rw [List.get?_eq_none]
      calc ((l.drop k).take m).length ≤ m := by
            rw [List.length_take]
            exact min_le_left _ _
        _ ≤ i := by omega
    rw [h1, h2]

theorem parseIPv6Parts_eval (parts : List (List Char)) (k hi lo : Nat)
    (pre post : List (List Char)) (HpreV HpostV : List Nat)
    (hlen9 : parts.length ≤ 9)
    (hfs : findSkipIndex parts = some (some k))
    (hsc : skipCounts parts k = some (hi, lo))
    (hhi : parts.take hi = pre)
    (hlo : parts.drop (parts.length - lo) = post)
    (hsz : hi + lo ≤ 7)
    (hmapPre : pre.mapM parseHextet = some HpreV)
    (hmapPost : post.mapM parseHextet = some HpostV) :
    parseIPv6Parts parts =
      some (recompose (HpreV ++ List.replicate (8 - (hi + lo)) 0 ++ HpostV)) := by
  simp only [parseIPv6Parts, hfs, hsc, hhi, hlo, hmapPre, hmapPost,
    if_neg (show ¬ parts.length > 9 by omega),
    if_neg (show ¬ 8 < hi + lo + 1 by omega)]
  congr 1
  rw [recompose_append, recompose_append, recompose_replicate_zero,
    List.length_replicate]
  rw [foldl_hextets HpostV]
  simp only [recompose]
  ring

theorem get?_ne_some_nil (l : List (List Char)) (y : Nat)
    (hl : ∀ p ∈ l, p ≠ []) (hy : y < l.length) : l.get? y ≠ some [] := by
  rw [List.get?_eq_getElem?, List.getElem?_eq_getElem hy]
  intro h
  simp only [Option.some.injEq] at h
  exact hl _ (List.getElem_mem hy) h

theorem parseIPv6Parts_shape (L T pre post : List (List Char))
    (hL : L = [] ∨ L = [[]]) (hT : T = [] ∨ T = [[]])
    (hLpre : L = [] → pre ≠ []) (hLpre' : L = [[]] → pre = [])
    (hTpost : T = [] → post ≠ []) (hTpost' : T = [[]] → post = [])
    (hpreNe : ∀ p ∈ pre, p ≠ []) (hpostNe : ∀ p ∈ post, p ≠ [])
    (hsz : pre.length + post.length ≤ 7)
    (HpreV HpostV : List Nat)
    (hmapPre : pre.mapM parseHextet = some HpreV)
    (hmapPost : post.mapM parseHextet = some HpostV) :
    parseIPv6Parts (L ++ pre ++ [[]] ++ post ++ T) =
      some (recompose (HpreV ++
        List.replicate (8 - (pre.length + post.length)) 0 ++ HpostV)) := by
  have hL1 : L.length ≤ 1 := by rcases hL with rfl | rfl <;> simp
  have hT1 : T.length ≤ 1 := by rcases hT with rfl | rfl <;> simp
  set parts := L ++ pre ++ [[]] ++ post ++ T with hparts
  set k := L.length + pre.length with hk
  have hlenEq : parts.length =
      L.length + pre.length + 1 + post.length + T.length := by
    simp only [hparts, List.length_append, List.length_singleton]
  have hassoc : parts = L ++ (pre ++ ([[]] ++ (post ++ T))) := by
    simp [hparts]
  have hget_pre : ∀ y, y < pre.length →
      parts.get? (L.length + y) = pre.get? y := by
    intro y hy
    rw [hassoc, List.get?_append_right (by omega)]
    rw [show L.length + y - L.length = y by omega]
    exact List.get?_append hy
  have hget_mid : parts.get? k = some [] := by
    rw [hassoc, List.get?_append_right (by omega)]
    rw [show k - L.length = pre.length by omega]
    rw [List.get?_append_right (by omega)]
    rw [show pre.length - pre.length = 0 by omega]
    rfl
  have hget_post : ∀ y, y < post.length →
      parts.get? (k + 1 + y) = post.get? y := by
    intro y hy
    rw [hassoc, List.get?_append_right (by omega)]
    rw [show k + 1 + y - L.length = pre.length + (1 + y) by omega]
    rw [List.get?_append_right (by omega)]
    rw [show pre.length + (1 + y) - pre.length = 1 + y by omega]
    rw [List.get?_append_right (by simp)]
    rw [show 1 + y - ([([] : List Char)]).length = y by simp]
    exact List.get?_append hy
  have hiff : ∀ x, x < parts.length →
      ((decide (1 ≤ x ∧ x + 1 < parts.length ∧ parts.get? x = some [])) = true ↔
        x = k) := by
    intro x hx
    rw [decide_eq_true_eq]
    constructor
    · rintro ⟨hx1, hx2, hxe⟩
      by_contra hxk
      rcases Nat.lt_or_ge x L.length with hr | hr
      · have hx0 : x = 0 := by omega
        omega
      rcases Nat.lt_or_ge x k with hr2 | hr2
      · have hy : x - L.length < pre.length := by omega
        have hg := hget_pre (x - L.length) hy
        rw [show L.length + (x - L.length) = x by omega] at hg
        rw [hg] at hxe
        exact get?_ne_some_nil pre _ hpreNe hy hxe
      rcases Nat.lt_or_ge x (k + 1 + post.length) with hr3 | hr3
      · have hy : x - (k + 1) < post.length := by omega
        have hg := hget_post (x - (k + 1)) hy
        rw [show k + 1 + (x - (k + 1)) = x by omega] at hg
        rw [hg] at hxe
        exact get?_ne_some_nil post _ hpostNe hy hxe
      · rw [hlenEq] at hx hx2
        omega
    · rintro rfl
      refine ⟨?_, ?_, hget_mid⟩
      · rcases hL with hLc | hLc
        · have hpne := hLpre hLc
          have hp1 : pre.length ≥ 1 := by
            cases hp : pre with
            | nil => exact absurd hp hpne
            | cons a as => simp [hp]
          subst hLc
          simp only [hk, List.length_nil]
          omega
        · subst hLc
          simp only [hk, List.length_singleton]
          omega
      · rw [hlenEq]
        rcases hT with hTc | hTc
        · have hpne := hTpost hTc
          have hp1 : post.length ≥ 1 := by
            cases hp : post with
            | nil => exact absurd hp hpne
            | cons a as => simp [hp]
          subst hTc
          simp only [List.length_nil]
          omega
        · subst hTc
          simp only [List.length_singleton]
          omega
  have hfs : findSkipIndex parts = some (some k) := by
    have hkx : k < parts.length := by rw [hlenEq]; omega
    have hfilter := filter_range_single parts.length k
      (fun i => decide (1 ≤ i ∧ i + 1 < parts.length ∧ parts.get? i = some []))
      hkx hiff
    simp only [findSkipIndex]
    rw [hfilter]
  have hsc : skipCounts parts k = some (pre.length, post.length) := by
    have hhead : L = [[]] → parts.head? = some [] := by
      rintro rfl
      rfl
    have hhead' : L = [] → parts.head? ≠ some [] := by
      rintro rfl hcon
      have hpre := hLpre rfl
      cases hp : pre with
      | nil => exact hpre hp
      | cons a as =>
        rw [hparts, hp] at hcon
        simp only [List.nil_append, List.cons_append, List.head?_cons,
          Option.some.injEq] at hcon
        exact hpreNe a (by rw [hp]; exact List.mem_cons_self a as) hcon
    have hlast : T = [[]] → parts.getLast? = some [] := by
      rintro rfl
      rw [hparts]
      exact List.getLast?_concat _
    have hlast' : T = [] → parts.getLast? ≠ some [] := by
      rintro rfl hcon
      have hpost := hTpost rfl
      rw [hparts, List.append_nil, List.getLast?_append] at hcon
      cases hg : post.getLast? with
      | none => exact hpost (List.getLast?_eq_none_iff.mp hg)
      | some a =>
        rw [hg] at hcon
        have ha : (some a : Option (List Char)) = some [] := hcon
        simp only [Option.some.injEq] at ha
        obtain ⟨hne, hgl⟩ := List.mem_getLast?_eq_getLast
          (show a ∈ post.getLast? from Option.mem_def.mpr hg)
        exact hpostNe a (hgl ▸ List.getLast_mem hne) ha
    have hhead2 : (if parts.head? = some [] then
        (if k - 1 = 0 then some 0 else none) else some k) = some pre.length := by
      rcases hL with hLc | hLc
      · rw [if_neg (hhead' hLc), hk, hLc]
        simp
      · rw [if_pos (hhead hLc),
          if_pos (show k - 1 = 0 by rw [hk, hLc, hLpre' hLc]; rfl),
          hLpre' hLc]
        rfl
    have hlast2 : (if parts.getLast? = some [] then
        (if parts.length - k - 1 - 1 = 0 then some 0 else none)
        else some (parts.length - k - 1)) = some post.length := by
      rcases hT with hTc | hTc
      · rw [if_neg (hlast' hTc)]
        congr 1
        rw [hlenEq, hTc, hk]
        simp only [List.length_nil]
        omega
      · rw [if_pos (hlast hTc),
          if_pos (show parts.length - k - 1 - 1 = 0 by
            rw [hlenEq, hTc, hTpost' hTc, hk]
            simp only [List.length_nil, List.length_singleton]
            omega),
          hTpost' hTc]
        rfl
    simp only [skipCounts, hhead2, hlast2]
  have htake : parts.take pre.length = pre := by
    rcases hL with hLc | hLc
    · rw [hassoc, hLc, List.nil_append]
      exact List.take_left' rfl
    · rw [hLpre' hLc]
      rfl
  have hdrop : parts.drop (parts.length - post.length) = post := by
    rcases hT with hTc | hTc
    · have hlen' : parts.length - post.length = (L ++ pre ++ [[]]).length := by
        rw [hlenEq, hTc]
        simp only [List.length_nil, List.length_append, List.length_singleton]
        omega
      rw [hlen', hparts, hTc, List.append_nil]
      exact List.drop_left _ _
    · rw [hTpost' hTc]
      simp only [List.length_nil, Nat.sub_zero]
      exact List.drop_length _
  have hLP : L.length = 0 ∨ (L.length = 1 ∧ pre.length = 0) := by
    rcases hL with rfl | rfl
    · exact Or.inl rfl
    · exact Or.inr ⟨rfl, by rw [hLpre' rfl]; rfl⟩
  have hTP : T.length = 0 ∨ (T.length = 1 ∧ post.length = 0) := by
    rcases hT with rfl | rfl
    · exact Or.inl rfl
    · exact Or.inr ⟨rfl, by rw [hTpost' rfl]; rfl⟩
  exact parseIPv6Parts_eval parts k pre.length post.length pre post HpreV
    HpostV (by rw [hlenEq]; omega) hfs hsc htake hdrop (by omega) hmapPre
    hmapPost

theorem joinSep_ne_nil2 (sep : Char) (parts : List (List Char))
    (h : 2 ≤ parts.length) : joinSep sep parts ≠ [] := by
  cases parts with
  | nil => simp at h
  | cons p ps =>
    cases ps with
    | nil => simp at h
    | cons q qs => simp [joinSep]

theorem parseIPv6_joinSep (parts : List (List Char))
    (hlen : 3 ≤ parts.length)
    (hnc : ∀ p ∈ parts, ':' ∉ p ∧ '.' ∉ p) :
    parseIPv6 (joinSep ':' parts) = parseIPv6Parts parts := by
  have hne : joinSep ':' parts ≠ [] := joinSep_ne_nil2 ':' parts (by omega)
  have hpne : parts ≠ [] := by
    intro h
    rw [h] at hlen
    simp at hlen
  have hsplit : splitOnChar ':' (joinSep ':' parts) = parts :=
    splitOnChar_joinSep ':' parts hpne (fun p hp => (hnc p hp).1)
  have hlast : parts.getLast? = some (parts.getLast hpne) :=
    List.getLast?_eq_getLast parts hpne
  have hlmem : parts.getLast hpne ∈ parts := List.getLast_mem hpne
  have hcont : (parts.getLast hpne).contains '.' = false :=
    contains_eq_false_of_not_mem _ _ (hnc _ hlmem).2
  simp only [parseIPv6, if_neg hne, hsplit,
    if_neg (show ¬ parts.length < 3 by omega), hlast, hcont,
    Bool.false_eq_true, if_false]

theorem parseIPv6_ipv6Chars (n : Nat) (hn : n < 2 ^ 128) :
    parseIPv6 (ipv6Chars n) = some n := by
  set H := hextetsOf n with hH
  set S := H.map hexChars4 with hS
  have hHlen : H.length = 8 := by rw [hH]; exact hextetsOf_length n
  have hSlen : S.length = 8 := by rw [hS, List.length_map]; exact hHlen
  have hHlt : ∀ h ∈ H, h < 65536 := by rw [hH]; exact hextetsOf_lt n
  have hSne : ∀ p ∈ S, p ≠ [] := by
    intro p hp
    rw [hS] at hp
    obtain ⟨h, hh, rfl⟩ := List.mem_map.mp hp
    exact hexChars4_ne_nil h
  have hSnc : ∀ p ∈ S, ':' ∉ p ∧ '.' ∉ p := by
    intro p hp
    rw [hS] at hp
    obtain ⟨h, hh, rfl⟩ := List.mem_map.mp hp
    exact ⟨fun hc => (hexChars4_hex h _ hc).2.1 rfl,
           fun hc => (hexChars4_hex h _ hc).2.2 rfl⟩
  have hrec : recompose H = n := by rw [hH]; exact recompose_hextetsOf n hn
  have hic : ipv6Chars n = joinSep ':' (compressHextets S) := by
    rw [hS, hH]; rfl
  rw [hic]
  have hplain : compressHextets S = S →
      parseIPv6 (joinSep ':' (compressHextets S)) = some n := by
    intro hc
    rw [hc, parseIPv6_joinSep S (by omega) hSnc]
    have hfs : findSkipIndex S = some none := by
      simp only [findSkipIndex]
      rw [filter_range_nil S.length _ (fun x hx => by
        rw [decide_eq_false_iff_not]
        rintro ⟨-, -, hxe⟩
        exact get?_ne_some_nil S x hSne hx hxe)]
    have hmapS : S.mapM parseHextet = some H := by
      rw [hS]
      exact mapM_parseHextet_map H hHlt
    simp only [parseIPv6Parts, hfs, hmapS, hSlen,
      if_neg (show ¬ (8 : Nat) > 9 by omega), if_pos rfl, hrec]
    exact if_pos trivial
  rcases hbr : bestRun S with ⟨obs, bl⟩
  cases obs with
  | none =>
    exact hplain (by simp [compressHextets, hbr])
  | some bs =>
    by_cases hbl : bl > 1
    · -- compression happens
      obtain ⟨hble, hzeros⟩ := bestRun_spec S bs bl hbr
      rw [hSlen] at hble
      have hHzero : ∀ j, bs ≤ j → j < bs + bl → H.get? j = some 0 := by
        intro j hj1 hj2
        have hjS := hzeros j hj1 hj2
        rw [hS, List.get?_map] at hjS
        cases hg : H.get? j with
        | none => rw [hg] at hjS; cases hjS
        | some h =>
          rw [hg] at hjS
          simp only [Option.map_some', Option.some.injEq] at hjS
          have hmem : h ∈ H := List.get?_mem hg
          rw [hexChars4_eq_zero h (hHlt h hmem) hjS]
      have hprelen : (S.take bs).length = bs := by
        rw [List.length_take, hSlen]
        omega
      have hpostlen : (S.drop (bs + bl)).length = 8 - (bs + bl) := by
        rw [List.length_drop, hSlen]
      have hmapPre : (S.take bs).mapM parseHextet = some (H.take bs) := by
        rw [hS, ← List.map_take]
        exact mapM_parseHextet_map _ (fun h hh => hHlt h (List.take_subset _ _ hh))
      have hmapPost : (S.drop (bs + bl)).mapM parseHextet =
          some (H.drop (bs + bl)) := by
        rw [hS, ← List.map_drop]
        exact mapM_parseHextet_map _ (fun h hh => hHlt h (List.drop_subset _ _ hh))
      have hcomp : compressHextets S =
          (if bs = 0 then ([[]] : List (List Char)) else []) ++ S.take bs ++
            [[]] ++ S.drop (bs + bl) ++
            (if bs + bl = 8 then ([[]] : List (List Char)) else []) := by
        simp only [compressHextets, hbr, if_pos hbl]
        by_cases he : bs + bl = S.length
        · have hd1 : (S ++ [[]] : List (List Char)).drop (bs + bl) = [[]] := by
            rw [he]
            exact List.drop_left S [[]]
          have hd2 : S.drop (bs + bl) = [] := by
            rw [he]
            exact List.drop_length S
          rw [if_pos he, List.take_append_of_le_length (by omega), hd1, hd2,
            if_pos (show bs + bl = 8 by rw [he, hSlen])]
          by_cases hbs : bs = 0 <;> simp [hbs]
        · rw [if_neg he]
          rw [if_neg (show ¬ bs + bl = 8 by rw [hSlen] at he; omega)]
          by_cases hbs : bs = 0 <;> simp [hbs]
      rw [hcomp]
      set L : List (List Char) := if bs = 0 then [[]] else [] with hLdef
      set T : List (List Char) := if bs + bl = 8 then [[]] else [] with hTdef
      have hshape := parseIPv6Parts_shape L T (S.take bs) (S.drop (bs + bl))
        (by rw [hLdef]; split_ifs <;> simp)
        (by rw [hTdef]; split_ifs <;> simp)
        (by
          intro hLe
          rw [hLdef] at hLe
          have hbs : bs ≠ 0 := by
            intro h
            rw [if_pos h] at hLe
            cases hLe
          intro htake
          have := hprelen
          rw [htake] at this
          simp at this
          omega)
        (by
          intro hLe
          rw [hLdef] at hLe
          by_cases hbs : bs = 0
          · rw [hbs, List.take_zero]
          · rw [if_neg hbs] at hLe
            cases hLe)
        (by
          intro hTe
          rw [hTdef] at hTe
          have he8 : bs + bl ≠ 8 := by
            intro h
            rw [if_pos h] at hTe
            cases hTe
          intro hdrop
          have := hpostlen
          rw [hdrop] at this
          simp at this
          omega)
        (by
          intro hTe
          rw [hTdef] at hTe
          by_cases he8 : bs + bl = 8
          · rw [he8, ← hSlen, List.drop_length]
          · rw [if_neg he8] at hTe
            cases hTe)
        (fun p hp => hSne p (List.take_subset _ _ hp))
        (fun p hp => hSne p (List.drop_subset _ _ hp))
        (by rw [hprelen, hpostlen]; omega)
        (H.take bs) (H.drop (bs + bl)) hmapPre hmapPost
      rw [parseIPv6_joinSep _ (by
          simp only [List.length_append, hprelen, hpostlen, hLdef, hTdef]
          split_ifs <;> simp <;> omega) (by
          intro p hp
          simp only [List.mem_append] at hp
          rcases hp with ((((hp | hp) | hp) | hp) | hp)
          · rw [hLdef] at hp
            split_ifs at hp
            · simp only [List.mem_singleton] at hp
              rw [hp]
              exact ⟨by simp, by simp⟩
            · cases hp
          · exact hSnc p (List.take_subset _ _ hp)
          · simp only [List.mem_singleton] at hp
            rw [hp]
            exact ⟨by simp, by simp⟩
          · exact hSnc p (List.drop_subset _ _ hp)
          · rw [hTdef] at hp
            split_ifs at hp
            · simp only [List.mem_singleton] at hp
              rw [hp]
              exact ⟨by simp, by simp⟩
            · cases hp)]
      rw [hshape]
      congr 1
      rw [hprelen, hpostlen]
      rw [show 8 - (bs + (8 - (bs + bl))) = bl by omega]
      have hmid : (H.drop bs).take bl = List.replicate bl 0 :=
        take_drop_replicate H bs bl (by rw [hHlen]; omega) hHzero
      have hdd : (H.drop bs).drop bl = H.drop (bs + bl) := by
        rw [List.drop_drop, Nat.add_comm]
      calc recompose (H.take bs ++ List.replicate bl 0 ++ H.drop (bs + bl))
          = recompose (H.take bs ++ ((H.drop bs).take bl ++ (H.drop bs).drop bl)) := by
            rw [hmid, hdd, List.append_assoc]
        _ = recompose H := by rw [List.take_append_drop, List.take_append_drop]
        _ = n := hrec
    · exact hplain (by simp [compressHextets, hbr, hbl])

theorem mapM_some_forall (l : List (List Char)) (ys : List Nat)
    (h : l.mapM parseHextet = some ys) :
    ∀ x ∈ l, ∃ y, parseHextet x = some y := by
  induction l generalizing ys with
  | nil => intro x hx; cases hx
  | cons a as ih =>
    rw [List.mapM_cons] at h
    cases ha : parseHextet a with
    | none => rw [ha] at h; cases h
    | some y =>
      rw [ha] at h
      cases has : as.mapM parseHextet with
      | none => rw [has] at h; cases h
      | some ys' =>
        intro x hx
        rcases List.mem_cons.mp hx with rfl | hx'
        · exact ⟨y, ha⟩
        · exact ih ys' has x hx'

theorem mapM_vals_lt (l : List (List Char)) (ys : List Nat)
    (h : l.mapM parseHextet = some ys) : ∀ y ∈ ys, y < 65536 := by
  induction l generalizing ys with
  | nil =>
    intro y hy
    cases h
    cases hy
  | cons a as ih =>
    rw [List.mapM_cons] at h
    cases ha : parseHextet a with
    | none => rw [ha] at h; cases h
    | some v =>
      rw [ha] at h
      cases has : as.mapM parseHextet with
      | none => rw [has] at h; cases h
      | some ys' =>
        rw [has] at h
        simp only [Option.pure_def, Option.bind_eq_bind, Option.some_bind,
          Option.some.injEq] at h
        subst h
        intro y hy
        rcases List.mem_cons.mp hy with rfl | hy'
        · exact parseHextet_lt a y ha
        · exact ih ys' has y hy'

theorem mapM_length (l : List (List Char)) (ys : List Nat)
    (h : l.mapM parseHextet = some ys) : ys.length = l.length := by
  induction l generalizing ys with
  | nil => cases h; rfl
  | cons a as ih =>
    rw [List.mapM_cons] at h
    cases ha : parseHextet a with
    | none => rw [ha] at h; cases h
    | some v =>
      rw [ha] at h
      cases has : as.mapM parseHextet with
      | none => rw [has] at h; cases h
      | some ys' =>
        rw [has] at h
        simp only [Option.pure_def, Option.bind_eq_bind, Option.some_bind,
          Option.some.injEq] at h
        subst h
        simp [ih ys' has]

theorem foldl_hex_lt (L : List Nat) (hL : ∀ h ∈ L, h < 65536) :
    ∀ a, L.foldl (fun a h => a * 65536 + h) a < (a + 1) * 65536 ^ L.length := by
  induction L with
  | nil => intro a; simpa using Nat.lt_succ_self a
  | cons h T ih =>
    intro a
    have hh : h < 65536 := hL h (List.mem_cons_self h T)
    have hT : ∀ x ∈ T, x < 65536 := fun x hx => hL x (List.mem_cons_of_mem h hx)
    calc List.foldl (fun a h => a * 65536 + h) (a * 65536 + h) T
        < (a * 65536 + h + 1) * 65536 ^ T.length := ih hT _
      _ ≤ (65536 * (a + 1)) * 65536 ^ T.length :=
          Nat.mul_le_mul_right _ (by omega)
      _ = (a + 1) * 65536 ^ (T.length + 1) := by ring
      _ = (a + 1) * 65536 ^ (h :: T).length := by simp

theorem foldl_hex_from_lt (hiVals loVals : List Nat) (sk : Nat)
    (hhiB : ∀ y ∈ hiVals, y < 65536) (hloB : ∀ y ∈ loVals, y < 65536) :
    loVals.foldl (fun a h => a * 65536 + h)
      (hiVals.foldl (fun a h => a * 65536 + h) 0 * 65536 ^ sk) <
    65536 ^ (hiVals.length + sk + loVals.length) := by
  have ha1 : hiVals.foldl (fun a h => a * 65536 + h) 0 < 65536 ^ hiVals.length := by
    have := foldl_hex_lt hiVals hhiB 0
    simpa using this
  have hres := foldl_hex_lt loVals hloB
    (hiVals.foldl (fun a h => a * 65536 + h) 0 * 65536 ^ sk)
  have hpowpos : 0 < 65536 ^ sk := Nat.pos_pow_of_pos _ (by norm_num)
  have h1 : hiVals.foldl (fun a h => a * 65536 + h) 0 * 65536 ^ sk + 1 ≤
      65536 ^ hiVals.length * 65536 ^ sk := by
    have hle : hiVals.foldl (fun a h => a * 65536 + h) 0 + 1 ≤
        65536 ^ hiVals.length := ha1
    calc hiVals.foldl (fun a h => a * 65536 + h) 0 * 65536 ^ sk + 1
        ≤ hiVals.foldl (fun a h => a * 65536 + h) 0 * 65536 ^ sk + 65536 ^ sk := by
          omega
      _ = (hiVals.foldl (fun a h => a * 65536 + h) 0 + 1) * 65536 ^ sk := by ring
      _ ≤ 65536 ^ hiVals.length * 65536 ^ sk := Nat.mul_le_mul_right _ hle
  have h2 : (hiVals.foldl (fun a h => a * 65536 + h) 0 * 65536 ^ sk + 1) *
      65536 ^ loVals.length ≤ 65536 ^ (hiVals.length + sk + loVals.length) := by
    calc (hiVals.foldl (fun a h => a * 65536 + h) 0 * 65536 ^ sk + 1) *
        65536 ^ loVals.length
        ≤ 65536 ^ hiVals.length * 65536 ^ sk * 65536 ^ loVals.length :=
          Nat.mul_le_mul_right _ h1
      _ = 65536 ^ (hiVals.length + sk + loVals.length) := by
          rw [← Nat.pow_add, ← Nat.pow_add]
  exact lt_of_lt_of_le hres h2

theorem parseIPv6Parts_lt (parts : List (List Char)) (n : Nat)
    (hp : parseIPv6Parts parts = some n) : n < 2 ^ 128 := by
  unfold parseIPv6Parts at hp
  by_cases h9 : parts.length > 9
  · rw [if_pos h9] at hp; cases hp
  rw [if_neg h9] at hp
  cases hfs : findSkipIndex parts with
  | none => rw [hfs] at hp; cases hp
  | some sk =>
    rw [hfs] at hp
    cases sk with
    | some i =>
      dsimp only at hp
      cases hsc : skipCounts parts i with
      | none => rw [hsc] at hp; cases hp
      | some hl =>
        rcases hl with ⟨hi, lo⟩
        rw [hsc] at hp
        dsimp only at hp
        split_ifs at hp with h8
        cases hmh : (parts.take hi).mapM parseHextet with
        | none => rw [hmh] at hp; cases hp
        | some hiVals =>
          cases hml : (parts.drop (parts.length - lo)).mapM parseHextet with
          | none => rw [hmh, hml] at hp; cases hp
          | some loVals =>
            rw [hmh, hml] at hp
            dsimp only at hp
            simp only [Option.some.injEq] at hp
            subst hp
            have hhiB := mapM_vals_lt _ _ hmh
            have hloB := mapM_vals_lt _ _ hml
            have hhiL : hiVals.length ≤ hi := by
              rw [mapM_length _ _ hmh, List.length_take]
              exact min_le_left _ _
            have hloL : loVals.length ≤ lo := by
              rw [mapM_length _ _ hml, List.length_drop]
              omega
            have hb := foldl_hex_from_lt hiVals loVals (8 - (hi + lo)) hhiB hloB
            have hle : 65536 ^ (hiVals.length + (8 - (hi + lo)) + loVals.length) ≤
                2 ^ 128 := by
              calc 65536 ^ (hiVals.length + (8 - (hi + lo)) + loVals.length)
                  ≤ 65536 ^ 8 := by
                    apply Nat.pow_le_pow_right (by norm_num)
                    omega
                _ = 2 ^ 128 := by norm_num
            exact lt_of_lt_of_le hb hle
    | none =>
      dsimp only at hp
      split_ifs at hp with h8
      cases hm : parts.mapM parseHextet with
      | none => rw [hm] at hp; cases hp
      | some vals =>
        rw [hm] at hp
        simp only [Option.some.injEq] at hp
        subst hp
        have hB := mapM_vals_lt _ _ hm
        have hL : vals.length = 8 := by rw [mapM_length _ _ hm, h8]
        have := foldl_hex_lt vals hB 0
        simp only [Nat.zero_add, Nat.one_mul] at this
        calc recompose vals < 65536 ^ vals.length := this
          _ = 2 ^ 128 := by rw [hL]; norm_num

theorem parseIPv6_lt (cs : List Char) (n : Nat)
    (hp : parseIPv6 cs = some n) : n < 2 ^ 128 := by
  unfold parseIPv6 at hp
  by_cases h1 : cs = []
  · rw [if_pos h1] at hp; cases hp
  rw [if_neg h1] at hp
  dsimp only at hp
  by_cases h2 : (splitOnChar ':' cs).length < 3
  · rw [if_pos h2] at hp; cases hp
  rw [if_neg h2] at hp
  cases hlast : (splitOnChar ':' cs).getLast? with
  | none => rw [hlast] at hp; cases hp
  | some lastP =>
    rw [hlast] at hp
    dsimp only at hp
    by_cases hdot : lastP.contains '.' = true
    · rw [if_pos hdot] at hp
      cases hv4 : parseIPv4 lastP with
      | none => rw [hv4] at hp; cases hp
      | some v4 =>
        rw [hv4] at hp
        exact parseIPv6Parts_lt _ n hp
    · rw [if_neg hdot] at hp
      exact parseIPv6Parts_lt _ n hp


theorem mem_joinSep (sep : Char) (parts : List (List Char)) (c : Char)
    (hc : c ∈ joinSep sep parts) : c = sep ∨ ∃ p ∈ parts, c ∈ p := by
  induction parts with
  | nil => cases hc
  | cons p ps ih =>
    cases ps with
    | nil => exact Or.inr ⟨p, by simp, by simpa [joinSep] using hc⟩
    | cons q qs =>
      simp only [joinSep, List.mem_append, List.mem_cons] at hc
      rcases hc with h | h | h
      · exact Or.inr ⟨p, by simp, h⟩
      · exact Or.inl h
      · rcases ih h with h' | ⟨r, hr, hcr⟩
        · exact Or.inl h'
        · exact Or.inr ⟨r, List.mem_cons_of_mem p hr, hcr⟩

theorem filter_eq_single_iff (n i : Nat) (p : Nat → Bool)
    (h : (List.range n).filter p = [i]) :
    ∀ x, x < n → (p x = true ↔ x = i) := by
  intro x hx
  constructor
  · intro hpx
    have hm : x ∈ (List.range n).filter p :=
      List.mem_filter.mpr ⟨List.mem_range.mpr hx, hpx⟩
    rw [h] at hm
    simpa using hm
  · intro hxi
    subst hxi
    have hm : x ∈ (List.range n).filter p := by rw [h]; simp
    exact (List.mem_filter.mp hm).2

theorem findSkipIndex_inv (parts : List (List Char)) (i : Nat)
    (h : findSkipIndex parts = some (some i)) :
    (1 ≤ i ∧ i + 1 < parts.length ∧ parts.get? i = some []) ∧
    ∀ x, x < parts.length →
      ((1 ≤ x ∧ x + 1 < parts.length ∧ parts.get? x = some []) ↔ x = i) := by
  unfold findSkipIndex at h
  cases hm : (List.range parts.length).filter
      (fun i => decide (1 ≤ i ∧ i + 1 < parts.length ∧ parts.get? i = some [])) with
  | nil => rw [hm] at h; cases h
  | cons j js =>
    cases js with
    | nil =>
      rw [hm] at h
      have hji : j = i := by
        simpa using h
      subst hji
      have hiff := filter_eq_single_iff parts.length j _ hm
      have hji : j ∈ (List.range parts.length).filter
          (fun i => decide (1 ≤ i ∧ i + 1 < parts.length ∧
            parts.get? i = some [])) := by rw [hm]; simp
      have hji2 := (List.mem_filter.mp hji).2
      have hP : 1 ≤ j ∧ j + 1 < parts.length ∧ parts.get? j = some [] := by
        simpa using hji2
      refine ⟨hP, fun x hx => ?_⟩
      have := hiff x hx
      simpa using this
    | cons k ks => rw [hm] at h; cases h

theorem skipCounts_inv (parts : List (List Char)) (i hi lo : Nat)
    (h : skipCounts parts i = some (hi, lo)) :
    ((parts.head? = some [] ∧ i - 1 = 0 ∧ hi = 0) ∨
      (parts.head? ≠ some [] ∧ hi = i)) ∧
    ((parts.getLast? = some [] ∧ parts.length - i - 1 - 1 = 0 ∧ lo = 0) ∨
      (parts.getLast? ≠ some [] ∧ lo = parts.length - i - 1)) := by
  unfold skipCounts at h
  by_cases hh : parts.head? = some []
  · rw [if_pos hh] at h
    by_cases hi1 : i - 1 = 0
    · rw [if_pos hi1] at h
      by_cases hl : parts.getLast? = some []
      · rw [if_pos hl] at h
        by_cases hl1 : parts.length - i - 1 - 1 = 0
        · rw [if_pos hl1] at h
          dsimp only at h
          simp only [Option.some.injEq, Prod.mk.injEq] at h
          exact ⟨Or.inl ⟨hh, hi1, h.1.symm⟩, Or.inl ⟨hl, hl1, h.2.symm⟩⟩
        · rw [if_neg hl1] at h; cases h
      · rw [if_neg hl] at h
        dsimp only at h
        simp only [Option.some.injEq, Prod.mk.injEq] at h
        exact ⟨Or.inl ⟨hh, hi1, h.1.symm⟩, Or.inr ⟨hl, h.2.symm⟩⟩
    · rw [if_neg hi1] at h; cases h
  · rw [if_neg hh] at h
    by_cases hl : parts.getLast? = some []
    · rw [if_pos hl] at h
      by_cases hl1 : parts.length - i - 1 - 1 = 0
      · rw [if_pos hl1] at h
        dsimp only at h
        simp only [Option.some.injEq, Prod.mk.injEq] at h
        exact ⟨Or.inr ⟨hh, h.1.symm⟩, Or.inl ⟨hl, hl1, h.2.symm⟩⟩
      · rw [if_neg hl1] at h; cases h
    · rw [if_neg hl] at h
      dsimp only at h
      simp only [Option.some.injEq, Prod.mk.injEq] at h
      exact ⟨Or.inr ⟨hh, h.1.symm⟩, Or.inr ⟨hl, h.2.symm⟩⟩

theorem parts_mid_empty (parts : List (List Char)) (i hi lo j : Nat)
    (hfs : findSkipIndex parts = some (some i))
    (hsc : skipCounts parts i = some (hi, lo))
    (hj1 : hi ≤ j) (hj2 : j < parts.length - lo) :
    parts.get? j = some [] := by
  obtain ⟨⟨hi1, hilt, hinil⟩, -⟩ := findSkipIndex_inv parts i hfs
  obtain ⟨hhi, hlo⟩ := skipCounts_inv parts i hi lo hsc
  have hlast : parts.getLast? = parts.get? (parts.length - 1) :=
    List.getLast?_eq_get? parts
  have hhead : parts.get? 0 = parts.head? := List.get?_zero parts
  rcases hhi with ⟨hh, hi1i, hhiz⟩ | ⟨hh, hhiz⟩
  · rcases hlo with ⟨hl, hl1, hloz⟩ | ⟨hl, hloz⟩
    · have hcase : j = 0 ∨ j = i ∨ j = parts.length - 1 := by omega
      rcases hcase with hj0 | hji | hjl
      · rw [hj0, hhead]; exact hh
      · rw [hji]; exact hinil
      · rw [hjl, ← hlast]; exact hl
    · have hcase : j = 0 ∨ j = i := by omega
      rcases hcase with hj0 | hji
      · rw [hj0, hhead]; exact hh
      · rw [hji]; exact hinil
  · rcases hlo with ⟨hl, hl1, hloz⟩ | ⟨hl, hloz⟩
    · have hcase : j = i ∨ j = parts.length - 1 := by omega
      rcases hcase with hji | hjl
      · rw [hji]; exact hinil
      · rw [hjl, ← hlast]; exact hl
    · have hji : j = i := by omega
      rw [hji]; exact hinil

theorem parseIPv6Parts_chars (parts : List (List Char)) (n : Nat)
    (hp : parseIPv6Parts parts = some n) :
    ∀ p ∈ parts, p = [] ∨ ∀ c ∈ p, isHexChar c = true := by
  unfold parseIPv6Parts at hp
  by_cases h9 : parts.length > 9
  · rw [if_pos h9] at hp; cases hp
  rw [if_neg h9] at hp
  cases hfs : findSkipIndex parts with
  | none => rw [hfs] at hp; cases hp
  | some sk =>
    rw [hfs] at hp
    cases sk with
    | some i =>
      dsimp only at hp
      cases hsc : skipCounts parts i with
      | none => rw [hsc] at hp; cases hp
      | some hl =>
        rcases hl with ⟨hi, lo⟩
        rw [hsc] at hp
        dsimp only at hp
        split_ifs at hp with h8
        cases hmh : (parts.take hi).mapM parseHextet with
        | none => rw [hmh] at hp; cases hp
        | some hiVals =>
          cases hml : (parts.drop (parts.length - lo)).mapM parseHextet with
          | none => rw [hmh, hml] at hp; cases hp
          | some loVals =>
            intro p hpmem
            obtain ⟨j, hj⟩ := List.mem_iff_get?.mp hpmem
            have hjlen : j < parts.length := by
              by_contra hge
              rw [List.get?_eq_none.mpr (by omega)] at hj
              cases hj
            by_cases hjhi : j < hi
            · have htake : (parts.take hi).get? j = some p := by
                rw [List.get?_take hjhi]; exact hj
              have hpt : p ∈ parts.take hi := List.get?_mem htake
              obtain ⟨v, hv⟩ := mapM_some_forall _ _ hmh p hpt
              exact Or.inr (parseHextet_hexChars p v hv).2
            by_cases hjlo : parts.length - lo ≤ j
            · have hdrop : (parts.drop (parts.length - lo)).get?
                  (j - (parts.length - lo)) = some p := by
                rw [List.get?_drop]
                rw [show parts.length - lo + (j - (parts.length - lo)) = j by
                  omega]
                exact hj
              have hpt : p ∈ parts.drop (parts.length - lo) :=
                List.get?_mem hdrop
              obtain ⟨v, hv⟩ := mapM_some_forall _ _ hml p hpt
              exact Or.inr (parseHextet_hexChars p v hv).2
            · have := parts_mid_empty parts i hi lo j hfs hsc (by omega) (by omega)
              rw [hj] at this
              exact Or.inl (by simpa using this.symm)
    | none =>
      dsimp only at hp
      split_ifs at hp with h8
      cases hm : parts.mapM parseHextet with
      | none => rw [hm] at hp; cases hp
      | some vals =>
        intro p hpmem
        obtain ⟨v, hv⟩ := mapM_some_forall _ _ hm p hpmem
        exact Or.inr (parseHextet_hexChars p v hv).2

theorem isDigitChar_isHexChar (c : Char) (h : isDigitChar c = true) :
    isHexChar c = true := by
  unfold isHexChar
  rw [h]
  rfl

theorem parseIPv6_chars (cs : List Char) (n : Nat)
    (hp : parseIPv6 cs = some n) :
    ∀ c ∈ cs, isHexChar c = true ∨ c = ':' ∨ c = '.' := by
  intro c hc
  unfold parseIPv6 at hp
  by_cases h1 : cs = []
  · rw [if_pos h1] at hp; cases hp
  rw [if_neg h1] at hp
  dsimp only at hp
  by_cases h2 : (splitOnChar ':' cs).length < 3
  · rw [if_pos h2] at hp; cases hp
  rw [if_neg h2] at hp
  cases hlast : (splitOnChar ':' cs).getLast? with
  | none => rw [hlast] at hp; cases hp
  | some lastP =>
    rw [hlast] at hp
    dsimp only at hp
    rcases splitOnChar_cover ':' cs c hc with hcol | ⟨p, hpmem, hcp⟩
    · exact Or.inr (Or.inl hcol)
    have hnn : splitOnChar ':' cs ≠ [] := splitOnChar_ne_nil ':' cs
    have hsplit : (splitOnChar ':' cs).dropLast ++ [lastP] = splitOnChar ':' cs := by
      have h3 := List.dropLast_append_getLast hnn
      rw [List.getLast?_eq_getLast _ hnn] at hlast
      have h4 : (splitOnChar ':' cs).getLast hnn = lastP := Option.some.inj hlast
      rw [h4] at h3
      exact h3
    have hpcases : p ∈ (splitOnChar ':' cs).dropLast ∨ p = lastP := by
      rw [← hsplit] at hpmem
      rcases List.mem_append.mp hpmem with h | h
      · exact Or.inl h
      · exact Or.inr (by simpa using h)
    by_cases hdot : lastP.contains '.' = true
    · rw [if_pos hdot] at hp
      cases hv4 : parseIPv4 lastP with
      | none => rw [hv4] at hp; cases hp
      | some v4 =>
        rw [hv4] at hp
        have hchars := parseIPv6Parts_chars _ _ hp
        rcases hpcases with hdl | rfl
        · have hpin : p ∈ (splitOnChar ':' cs).dropLast ++
              [hexChars4 (v4 / 65536), hexChars4 (v4 % 65536)] :=
            List.mem_append.mpr (Or.inl hdl)
          rcases hchars p hpin with rfl | hhex
          · cases hcp
          · exact Or.inl (hhex c hcp)
        · rcases parseIPv4_chars p v4 hv4 c hcp with hd | hd
          · exact Or.inl (isDigitChar_isHexChar c hd)
          · exact Or.inr (Or.inr hd)
    · rw [if_neg hdot] at hp
      have hchars := parseIPv6Parts_chars _ _ hp
      rcases hchars p hpmem with rfl | hhex
      · cases hcp
      · exact Or.inl (hhex c hcp)

/-! ## Address-level round trip -/

theorem dropWhile_id (p : Char → Bool) (cs : List Char)
    (h : ∀ c ∈ cs, p c = false) : cs.dropWhile p = cs := by
  cases cs with
  | nil => rfl
  | cons c cs' =>
    rw [List.dropWhile_cons, if_neg]
    rw [h c (List.mem_cons_self c cs')]
    simp

theorem pyStrip_id (cs : List Char) (h : ∀ c ∈ cs, isPySpace c = false) :
    pyStrip cs = cs := by
  unfold pyStrip
  rw [dropWhile_id _ _ h,
    dropWhile_id _ _ (fun c hc => h c (List.mem_reverse.mp hc)),
    List.reverse_reverse]

theorem not_space_of_class (c : Char)
    (h : isHexChar c = true ∨ c = ':' ∨ c = '.' ∨ c = '/') :
    isPySpace c = false := by
  have hne : c.toNat ≠ 32 ∧ c.toNat ≠ 9 ∧ c.toNat ≠ 10 ∧ c.toNat ≠ 13 ∧
      c.toNat ≠ 11 ∧ c.toNat ≠ 12 := by
    rcases h with h | rfl | rfl | rfl
    · unfold isHexChar isDigitChar at h
      simp only [Bool.or_eq_true, Bool.and_eq_true, decide_eq_true_eq] at h
      omega
    · refine ⟨by decide, by decide, by decide, by decide, by decide, by decide⟩
    · refine ⟨by decide, by decide, by decide, by decide, by decide, by decide⟩
    · refine ⟨by decide, by decide, by decide, by decide, by decide, by decide⟩
  unfold isPySpace
  simp only [Bool.or_eq_false_iff, decide_eq_false_iff_not]
  refine ⟨⟨⟨⟨⟨?_, ?_⟩, ?_⟩, ?_⟩, ?_⟩, ?_⟩ <;>
    (intro he; have := congrArg Char.toNat he; simp at this; omega)

theorem ipv4Chars_class (n : Nat) (hn : n < 2 ^ 32) :
    ∀ c ∈ ipv4Chars n, isDigitChar c = true ∨ c = '.' :=
  parseIPv4_chars _ _ (parseIPv4_ipv4Chars n hn)

theorem ipv6Chars_class (n : Nat) (hn : n < 2 ^ 128) :
    ∀ c ∈ ipv6Chars n, isHexChar c = true ∨ c = ':' ∨ c = '.' :=
  parseIPv6_chars _ _ (parseIPv6_ipv6Chars n hn)

theorem parseIPv6_has_colon (cs : List Char) (m : Nat)
    (hp : parseIPv6 cs = some m) : ':' ∈ cs := by
  by_contra hno
  unfold parseIPv6 at hp
  by_cases h1 : cs = []
  · rw [if_pos h1] at hp; cases hp
  rw [if_neg h1] at hp
  dsimp only at hp
  rw [splitOnChar_no_sep ':' cs hno] at hp
  rw [if_pos (by simp)] at hp
  cases hp

theorem parseIPv4_ipv6Chars (n : Nat) (hn : n < 2 ^ 128) :
    parseIPv4 (ipv6Chars n) = none := by
  cases h : parseIPv4 (ipv6Chars n) with
  | none => rfl
  | some m =>
    have hcolon := parseIPv6_has_colon _ _ (parseIPv6_ipv6Chars n hn)
    rcases parseIPv4_chars _ _ h ':' hcolon with hd | hd
    · exact absurd hd (by decide)
    · exact absurd hd (by decide)

theorem parseIPAddress_ok (cs : List Char) (a : IPAddr)
    (h : parseIPAddress cs = some a) : addrOk a := by
  unfold parseIPAddress at h
  cases h4 : parseIPv4 cs with
  | some m =>
    rw [h4] at h
    simp only [Option.some.injEq] at h
    subst h
    exact parseIPv4_lt cs m h4
  | none =>
    rw [h4] at h
    cases h6 : parseIPv6 cs with
    | none => rw [h6] at h; cases h
    | some m =>
      rw [h6] at h
      simp only [Option.some.injEq] at h
      subst h
      exact parseIPv6_lt cs m h6

theorem parseIPAddress_addrChars (a : IPAddr) (ha : addrOk a) :
    parseIPAddress (addrChars a) = some a := by
  cases a with
  | v4 n =>
    unfold parseIPAddress addrChars
    rw [parseIPv4_ipv4Chars n ha]
  | v6 n =>
    unfold parseIPAddress addrChars
    rw [parseIPv4_ipv6Chars n ha, parseIPv6_ipv6Chars n ha]

theorem addrChars_class (a : IPAddr) (ha : addrOk a) :
    ∀ c ∈ addrChars a, isHexChar c = true ∨ c = ':' ∨ c = '.' := by
  cases a with
  | v4 n =>
    intro c hc
    rcases ipv4Chars_class n ha c hc with hd | hd
    · exact Or.inl (isDigitChar_isHexChar c hd)
    · exact Or.inr (Or.inr hd)
  | v6 n => exact ipv6Chars_class n ha

theorem pyStrip_addrChars (a : IPAddr) (ha : addrOk a) :
    pyStrip (addrChars a) = addrChars a :=
  pyStrip_id _ (fun c hc => not_space_of_class c
    (by rcases addrChars_class a ha c hc with h | h | h
        · exact Or.inl h
        · exact Or.inr (Or.inl h)
        · exact Or.inr (Or.inr (Or.inl h))))

theorem parseIPAddress_nil : parseIPAddress [] = none := rfl

/-! ## Network parse/print round trip -/

theorem parseOctet_decValue (cs : List Char) (o : Nat)
    (hp : parseOctet cs = some o) : decValue cs = o := by
  unfold parseOctet at hp
  split_ifs at hp with h1 h2 h3 h4
  · exact Option.some.inj hp

theorem parsePlen_decChars (maxlen p : Nat) (hle : p ≤ maxlen)
    (h256 : p < 256) : parsePlen maxlen (decChars 3 p) = some p := by
  obtain ⟨hpo, hne, hdig⟩ := parseOctet_decChars p h256
  have hdv : decValue (decChars 3 p) = p := parseOctet_decValue _ _ hpo
  cases hcs : decChars 3 p with
  | nil => exact absurd hcs hne
  | cons c cs' =>
    rw [hcs] at hdv hdig
    unfold parsePlen
    dsimp only
    rw [if_pos (List.all_eq_true.mpr hdig), if_pos (by rw [hdv]; exact hle),
      hdv]

theorem parsePlen_le (maxlen : Nat) (cs : List Char) (p : Nat)
    (h : parsePlen maxlen cs = some p) : p ≤ maxlen := by
  unfold parsePlen at h
  split at h
  · cases h
  · dsimp only at h
    split_ifs at h with hall hle
    · simp only [Option.some.injEq] at h
      omega

theorem plenFromIpInt_le (maxlen n p : Nat)
    (h : plenFromIpInt maxlen n = some p) : p ≤ maxlen := by
  unfold plenFromIpInt at h
  dsimp only at h
  split_ifs at h with hc
  · simp only [Option.some.injEq] at h
    omega

theorem plenFromIpChars_le (version : Nat) (cs : List Char) (p : Nat)
    (h : plenFromIpChars version cs = some p) : p ≤ widthOf version := by
  unfold plenFromIpChars at h
  dsimp only at h
  cases hp : (if version = 4 then parseIPv4 cs else parseIPv6 cs) with
  | none => rw [hp] at h; cases h
  | some n =>
    rw [hp] at h
    dsimp only at h
    cases hq : plenFromIpInt (widthOf version) n with
    | some q =>
      rw [hq] at h
      simp only [Option.some.injEq] at h
      subst h
      exact plenFromIpInt_le _ _ _ hq
    | none =>
      rw [hq] at h
      exact plenFromIpInt_le _ _ _ h

theorem parseNetmask_le (version : Nat) (cs : List Char) (p : Nat)
    (h : parseNetmask version cs = some p) : p ≤ widthOf version := by
  unfold parseNetmask at h
  cases hpp : parsePlen (widthOf version) cs with
  | some q =>
    rw [hpp] at h
    simp only [Option.some.injEq] at h
    subst h
    exact parsePlen_le _ _ _ hpp
  | none =>
    rw [hpp] at h
    split_ifs at h with h4
    exact plenFromIpChars_le _ _ _ h

theorem parseNetmask_decChars (version p : Nat) (hle : p ≤ widthOf version) :
    parseNetmask version (decChars 3 p) = some p := by
  unfold parseNetmask
  rw [parsePlen_decChars _ p hle
    (lt_of_le_of_lt hle (by unfold widthOf; split <;> norm_num))]

theorem maskHigh_le (w p n : Nat) : maskHigh w p n ≤ n :=
  Nat.div_mul_le_self n _

theorem maskHigh_idem (w p n : Nat) :
    maskHigh w p (maskHigh w p n) = maskHigh w p n := by
  unfold maskHigh
  rw [Nat.mul_div_cancel _ (Nat.pos_pow_of_pos _ (by norm_num))]

theorem maskHigh_full (w n : Nat) : maskHigh w w n = n := by
  unfold maskHigh
  simp [Nat.sub_self]

theorem parseEither_lt (version : Nat) (a : List Char) (n : Nat)
    (hn : (if version = 4 then parseIPv4 a else parseIPv6 a) = some n) :
    n < 2 ^ widthOf version := by
  by_cases h4 : version = 4
  · rw [if_pos h4] at hn
    simpa [widthOf, h4] using parseIPv4_lt _ _ hn
  · rw [if_neg h4] at hn
    simpa [widthOf, h4] using parseIPv6_lt _ _ hn

theorem parseNetV_ok (version : Nat) (cs : List Char) (net : IPNet)
    (h : parseNetV version cs = some net) :
    net.version = version ∧ net.addr < 2 ^ widthOf version ∧
    maskHigh (widthOf version) net.plen net.addr = net.addr ∧
    net.plen ≤ widthOf version := by
  unfold parseNetV at h
  dsimp only at h
  cases hp : splitOnChar '/' cs with
  | nil => rw [hp] at h; cases h
  | cons a rest =>
    cases rest with
    | nil =>
      rw [hp] at h
      dsimp only at h
      cases hn : (if version = 4 then parseIPv4 a else parseIPv6 a) with
      | none => rw [hn] at h; cases h
      | some n =>
        rw [hn] at h
        simp only [Option.pure_def, Option.bind_eq_bind, Option.some_bind,
          Option.some.injEq] at h
        subst h
        exact ⟨rfl, parseEither_lt version a n hn, maskHigh_full _ _,
          le_refl _⟩
    | cons q rest2 =>
      cases rest2 with
      | nil =>
        rw [hp] at h
        dsimp only at h
        cases hn : (if version = 4 then parseIPv4 a else parseIPv6 a) with
        | none => rw [hn] at h; cases h
        | some n =>
          rw [hn] at h
          simp only [Option.pure_def, Option.bind_eq_bind, Option.some_bind] at h
          cases hplen : parseNetmask version q with
          | none => rw [hplen] at h; cases h
          | some plen =>
            rw [hplen] at h
            simp only [Option.some_bind, Option.some.injEq] at h
            subst h
            exact ⟨rfl, lt_of_le_of_lt (maskHigh_le _ _ _)
              (parseEither_lt version a n hn),
              maskHigh_idem _ _ _, parseNetmask_le _ _ _ hplen⟩
      | cons r rest3 => rw [hp] at h; cases h

theorem netOk_iff (net : IPNet) :
    netOk net ↔ ((net.version = 4 ∨ net.version = 6) ∧
      net.addr < 2 ^ widthOf net.version ∧
      maskHigh (widthOf net.version) net.plen net.addr = net.addr ∧
      net.plen ≤ widthOf net.version) := Iff.rfl

theorem parseIPNet_ok (cs : List Char) (net : IPNet)
    (h : parseIPNet cs = some net) : netOk net := by
  unfold parseIPNet at h
  rw [netOk_iff]
  cases h4 : parseNetV 4 cs with
  | some m =>
    rw [h4] at h
    simp only [Option.some.injEq] at h
    subst h
    obtain ⟨hv, hb, hm, hp⟩ := parseNetV_ok 4 cs _ h4
    rw [hv]
    exact ⟨Or.inl rfl, hb, hm, hp⟩
  | none =>
    rw [h4] at h
    obtain ⟨hv, hb, hm, hp⟩ := parseNetV_ok 6 cs _ h
    rw [hv]
    exact ⟨Or.inr rfl, hb, hm, hp⟩

theorem slash_not_class : isDigitChar '/' = false ∧ isHexChar '/' = false ∧
    ('/' : Char) ≠ '.' ∧ ('/' : Char) ≠ ':' := by
  refine ⟨by decide, by decide, by decide, by decide⟩

theorem no_slash_v4 (n : Nat) (hb : n < 2 ^ 32) : '/' ∉ ipv4Chars n := by
  intro hmem
  rcases ipv4Chars_class n hb '/' hmem with hd | hd
  · exact absurd hd (by decide)
  · exact absurd hd (by decide)

theorem no_slash_v6 (n : Nat) (hb : n < 2 ^ 128) : '/' ∉ ipv6Chars n := by
  intro hmem
  rcases ipv6Chars_class n hb '/' hmem with hd | hd | hd
  · exact absurd hd (by decide)
  · exact absurd hd (by decide)
  · exact absurd hd (by decide)

theorem no_slash_dec (p : Nat) (h256 : p < 256) : '/' ∉ decChars 3 p := by
  intro hmem
  exact absurd ((parseOctet_decChars p h256).2.2 '/' hmem) (by decide)

theorem netChars_split (net : IPNet) (h : netOk net) :
    splitOnChar '/' (netChars net) =
      [(if net.version = 4 then ipv4Chars net.addr else ipv6Chars net.addr),
        decChars 3 net.plen] := by
  obtain ⟨hv, hb, hm, hp⟩ := (netOk_iff net).mp h
  have h256 : net.plen < 256 := by
    rcases hv with hv | hv <;> rw [hv] at hp <;>
      simp [widthOf] at hp <;> omega
  have hnsA : '/' ∉ (if net.version = 4 then ipv4Chars net.addr
      else ipv6Chars net.addr) := by
    rcases hv with hv | hv
    · rw [hv, if_pos rfl]
      exact no_slash_v4 net.addr (by rw [hv] at hb; simpa [widthOf] using hb)
    · rw [hv, if_neg (by norm_num)]
      exact no_slash_v6 net.addr (by rw [hv] at hb; simpa [widthOf] using hb)
  unfold netChars
  rw [splitOnChar_append '/' _ _ hnsA,
    splitOnChar_no_sep '/' _ (no_slash_dec net.plen h256)]

theorem slash_mem_netChars (net : IPNet) : '/' ∈ netChars net := by
  unfold netChars
  exact List.mem_append.mpr (Or.inr (List.mem_cons_self _ _))

theorem parseIPAddress_netChars (net : IPNet) :
    parseIPAddress (netChars net) = none := by
  have hs := slash_mem_netChars net
  unfold parseIPAddress
  cases h4 : parseIPv4 (netChars net) with
  | some m =>
    rcases parseIPv4_chars _ _ h4 '/' hs with hd | hd
    · exact absurd hd (by decide)
    · exact absurd hd (by decide)
  | none =>
    cases h6 : parseIPv6 (netChars net) with
    | some m =>
      rcases parseIPv6_chars _ _ h6 '/' hs with hd | hd | hd
      · exact absurd hd (by decide)
      · exact absurd hd (by decide)
      · exact absurd hd (by decide)
    | none => rfl

theorem parseNetV_netChars_v4 (net : IPNet) (h : netOk net)
    (hv : net.version = 4) : parseNetV 4 (netChars net) = some net := by
  obtain ⟨-, hb, hm, hp⟩ := (netOk_iff net).mp h
  rw [hv] at hb hm hp
  simp only [widthOf, if_pos rfl] at hb hm hp
  have hsplit := netChars_split net h
  rw [hv, if_pos rfl] at hsplit
  unfold parseNetV
  dsimp only
  rw [hsplit]
  dsimp only
  rw [if_pos rfl, parseIPv4_ipv4Chars _ hb]
  simp only [Option.pure_def, Option.bind_eq_bind, Option.some_bind]
  rw [parseNetmask_decChars 4 _ (by simpa [widthOf] using hp)]
  simp only [Option.some_bind, Option.some.injEq]
  have : maskHigh (widthOf 4) net.plen net.addr = net.addr := by
    simpa [widthOf] using hm
  rw [this, ← hv]

theorem parseNetV4_netChars_v6 (net : IPNet) (h : netOk net)
    (hv : net.version = 6) : parseNetV 4 (netChars net) = none := by
  obtain ⟨-, hb, hm, hp⟩ := (netOk_iff net).mp h
  rw [hv] at hb
  simp only [widthOf, if_neg (by norm_num : ¬(6 : Nat) = 4)] at hb
  have hsplit := netChars_split net h
  rw [hv, if_neg (by norm_num)] at hsplit
  unfold parseNetV
  dsimp only
  rw [hsplit]
  dsimp only
  rw [if_pos rfl, parseIPv4_ipv6Chars _ hb]
  rfl

theorem parseNetV_netChars_v6 (net : IPNet) (h : netOk net)
    (hv : net.version = 6) : parseNetV 6 (netChars net) = some net := by
  obtain ⟨-, hb, hm, hp⟩ := (netOk_iff net).mp h
  rw [hv] at hb hm hp
  simp only [widthOf, if_neg (by norm_num : ¬(6 : Nat) = 4)] at hb hm hp
  have hsplit := netChars_split net h
  rw [hv, if_neg (by norm_num)] at hsplit
  unfold parseNetV
  dsimp only
  rw [hsplit]
  dsimp only
  rw [if_neg (by norm_num), parseIPv6_ipv6Chars _ hb]
  simp only [Option.pure_def, Option.bind_eq_bind, Option.some_bind]
  rw [parseNetmask_decChars 6 _ (by simpa [widthOf] using hp)]
  simp only [Option.some_bind, Option.some.injEq]
  have : maskHigh (widthOf 6) net.plen net.addr = net.addr := by
    simpa [widthOf] using hm
  rw [this, ← hv]

theorem parseIPNet_netChars (net : IPNet) (h : netOk net) :
    parseIPNet (netChars net) = some net := by
  obtain ⟨hv, -, -, -⟩ := (netOk_iff net).mp h
  unfold parseIPNet
  rcases hv with hv | hv
  · rw [parseNetV_netChars_v4 net h hv]
  · rw [parseNetV4_netChars_v6 net h hv, parseNetV_netChars_v6 net h hv]

theorem netChars_class (net : IPNet) (h : netOk net) :
    ∀ c ∈ netChars net,
      isHexChar c = true ∨ c = ':' ∨ c = '.' ∨ c = '/' := by
  obtain ⟨hv, hb, -, hp⟩ := (netOk_iff net).mp h
  have h256 : net.plen < 256 := by
    rcases hv with hv | hv <;> rw [hv] at hp <;>
      simp [widthOf] at hp <;> omega
  intro c hc
  unfold netChars at hc
  rcases List.mem_append.mp hc with hc | hc
  · rcases hv with hv | hv
    · rw [hv, if_pos rfl] at hc
      have hb' : net.addr < 2 ^ 32 := by
        rw [hv] at hb; simpa [widthOf] using hb
      rcases ipv4Chars_class net.addr hb' c hc with hd | hd
      · exact Or.inl (isDigitChar_isHexChar c hd)
      · exact Or.inr (Or.inr (Or.inl hd))
    · rw [hv, if_neg (by norm_num)] at hc
      have hb' : net.addr < 2 ^ 128 := by
        rw [hv] at hb; simpa [widthOf] using hb
      rcases ipv6Chars_class net.addr hb' c hc with hd | hd | hd
      · exact Or.inl hd
      · exact Or.inr (Or.inl hd)
      · exact Or.inr (Or.inr (Or.inl hd))
  · rcases List.mem_cons.mp hc with rfl | hc
    · exact Or.inr (Or.inr (Or.inr rfl))
    · exact Or.inl (isDigitChar_isHexChar c
        ((parseOctet_decChars net.plen h256).2.2 c hc))

theorem pyStrip_netChars (net : IPNet) (h : netOk net) :
    pyStrip (netChars net) = netChars net :=
  pyStrip_id _ (fun c hc => not_space_of_class c (netChars_class net h c hc))

theorem parseIPNet_nil : parseIPNet [] = none := rfl

theorem validateIoc_addr (cs : List Char) (a : IPAddr)
    (h : parseIPAddress (pyStrip cs) = some a) :
    validateIoc cs = .ok (addrChars a, .ip) := by
  unfold validateIoc
  dsimp only
  have hne : pyStrip cs ≠ [] := by
    intro hnil
    rw [hnil, parseIPAddress_nil] at h
    cases h
  rw [if_neg hne, h]

theorem validateIoc_addr_rt (a : IPAddr) (ha : addrOk a) :
    validateIoc (addrChars a) = .ok (addrChars a, .ip) :=
  validateIoc_addr (addrChars a) a
    (by rw [pyStrip_addrChars a ha]; exact parseIPAddress_addrChars a ha)

theorem validateIoc_net (cs : List Char) (net : IPNet)
    (ha : parseIPAddress (pyStrip cs) = none)
    (h : parseIPNet (pyStrip cs) = some net) :
    validateIoc cs = .ok (netChars net, .ip) := by
  unfold validateIoc
  dsimp only
  have hne : pyStrip cs ≠ [] := by
    intro hnil
    rw [hnil, parseIPNet_nil] at h
    cases h
  rw [if_neg hne, ha, h]

theorem validateIoc_net_rt (net : IPNet) (h : netOk net) :
    validateIoc (netChars net) = .ok (netChars net, .ip) :=
  validateIoc_net (netChars net) net
    (by rw [pyStrip_netChars net h]; exact parseIPAddress_netChars net)
    (by rw [pyStrip_netChars net h]; exact parseIPNet_netChars net h)

/-! ## Claim theorems -/

/-- C5 (confirmed): every valid single IPv4/IPv6 address classifies as
kind `ip` with the library-canonical string, and classifying that
canonical string again returns the same string; every valid CIDR input
classifies as kind `ip` with the canonical masked `address/prefix` form
(idempotently), and concretely `10.1.2.3/24` and `10.1.2.0/24` both
normalize to `10.1.2.0/24`. -/
theorem C5_ip_canonicalization :
    (∀ (cs : List Char) (a : IPAddr), parseIPAddress (pyStrip cs) = some a →
      validateIoc cs = .ok (addrChars a, .ip) ∧
      validateIoc (addrChars a) = .ok (addrChars a, .ip)) ∧
    (∀ (cs : List Char) (net : IPNet), parseIPAddress (pyStrip cs) = none →
      parseIPNet (pyStrip cs) = some net →
      validateIoc cs = .ok (netChars net, .ip) ∧
      validateIoc (netChars net) = .ok (netChars net, .ip)) ∧
    validateIoc ['1','0','.','1','.','2','.','3','/','2','4'] =
      .ok (['1','0','.','1','.','2','.','0','/','2','4'], .ip) ∧
    validateIoc ['1','0','.','1','.','2','.','0','/','2','4'] =
      .ok (['1','0','.','1','.','2','.','0','/','2','4'], .ip) := by
  refine ⟨?_, ?_, rfl, rfl⟩
  · intro cs a h
    exact ⟨validateIoc_addr cs a h,
      validateIoc_addr_rt a (parseIPAddress_ok _ a h)⟩
  · intro cs net ha h
    exact ⟨validateIoc_net cs net ha h,
      validateIoc_net_rt net (parseIPNet_ok _ net h)⟩

/-- Closed instance of `C5_ip_canonicalization`: the quantified parts
applied to `1.2.3.4` and `10.1.2.3/24`, the hypotheses discharged by
evaluation. -/
theorem C5_ip_canonicalization_witness :
    validateIoc ['1','.','2','.','3','.','4'] =
      .ok (addrChars (IPAddr.v4 16909060), .ip) ∧
    validateIoc ['1','0','.','1','.','2','.','3','/','2','4'] =
      .ok (netChars ⟨4, 167838208, 24⟩, .ip) :=
  ⟨(C5_ip_canonicalization.1 ['1','.','2','.','3','.','4']
      (IPAddr.v4 16909060) (by decide)).1,
    (C5_ip_canonicalization.2.1 ['1','0','.','1','.','2','.','3','/','2','4']
      ⟨4, 167838208, 24⟩ (by decide) (by decide)).1⟩

/-- C6 counterexample: the input `ev*il.com` contains `*` yet
`detect_exclusion_type` silently types it `domain` (neither `wildcard`
nor rejection). -/
theorem C6_star_counterexample :
    ('*' ∈ (['e','v','*','i','l','.','c','o','m'] : List Char)) ∧
    detectExclusionType ['e','v','*','i','l','.','c','o','m'] =
      some "domain".data :=
  ⟨by decide, by decide⟩

/-- C6 (corrected): what does hold: a bare address string types as `ip`;
a string whose normalized form has no `/` is never typed `cidr`; a
string starting `*.` that parses as neither address nor network is typed
`wildcard`.  But a string containing `*` elsewhere can fall through to
`domain` (see the counterexample), so the all-star-strings part of the
claim is false. -/
theorem C6_detect_amended :
    (∀ (cs : List Char) (a : IPAddr),
      parseIPAddress (pyLower (pyStrip cs)) = some a →
      detectExclusionType cs = some "ip".data) ∧
    (∀ (cs t : List Char), detectExclusionType cs = some t →
      ('/' : Char) ∉ pyLower (pyStrip cs) → t ≠ "cidr".data) ∧
    (∀ cs : List Char,
      (('*' :: '.' :: []) : List Char).isPrefixOf (pyLower (pyStrip cs)) →
      parseIPAddress (pyLower (pyStrip cs)) = none →
      parseIPNet (pyLower (pyStrip cs)) = none →
      detectExclusionType cs = some "wildcard".data) := by
  refine ⟨?_, ?_, ?_⟩
  · intro cs a h
    unfold detectExclusionType
    dsimp only
    rw [h]
  · intro cs t h hns
    unfold detectExclusionType at h
    dsimp only at h
    cases ha : parseIPAddress (pyLower (pyStrip cs)) with
    | some a =>
      rw [ha] at h
      simp only [Option.some.injEq] at h
      subst h
      decide
    | none =>
      rw [ha] at h
      cases hn : parseIPNet (pyLower (pyStrip cs)) with
      | some net =>
        rw [hn] at h
        have hcf : (pyLower (pyStrip cs)).contains '/' = false :=
          contains_eq_false_of_not_mem _ _ hns
        rw [hcf] at h
        simp only [Bool.false_eq_true, if_false, Option.some.injEq] at h
        subst h
        decide
      | none =>
        rw [hn] at h
        dsimp only at h
        by_cases hw : (('*' :: '.' :: []) : List Char).isPrefixOf
            (pyLower (pyStrip cs)) = true
        · rw [if_pos hw] at h
          simp only [Option.some.injEq] at h
          subst h
          decide
        · rw [if_neg hw] at h
          split_ifs at h with hd
          simp only [Option.some.injEq] at h
          subst h
          decide
  · intro cs hw ha hn
    unfold detectExclusionType
    dsimp only
    rw [ha, hn, if_pos hw]

/-- Closed instance of `C6_detect_amended`: `192.168.1.1` types as `ip`
and `*.evil.com` types as `wildcard`. -/
theorem C6_detect_amended_witness :
    detectExclusionType ['1','9','2','.','1','6','8','.','1','.','1'] =
      some "ip".data ∧
    detectExclusionType ['*','.','e','v','i','l','.','c','o','m'] =
      some "wildcard".data :=
  ⟨C6_detect_amended.1 _ (.v4 3232235777) (by decide),
   C6_detect_amended.2.2 _ (by decide) (by decide) (by decide)⟩

theorem matchesExclusion_hash (v k : List Char) (e : Exclusion)
    (hk : k = "md5".data ∨ k = "sha1".data ∨ k = "sha256".data) :
    matchesExclusion v k e = .ok false := by
  have hk1 : k ≠ "domain".data := by rcases hk with rfl | rfl | rfl <;> decide
  have hk2 : k ≠ "ip".data := by rcases hk with rfl | rfl | rfl <;> decide
  unfold matchesExclusion
  rw [if_neg (fun hc => hk1 hc.2.1), if_neg (fun hc => hk2 hc.2),
    if_neg (fun hc => hk1 hc.2), if_neg (fun hc => hk2 hc.2)]

theorem checkExclusionsLoop_hash (v k : List Char) (excls : List Exclusion)
    (hk : k = "md5".data ∨ k = "sha1".data ∨ k = "sha256".data) :
    checkExclusionsLoop v k excls = .ok none := by
  induction excls with
  | nil => rfl
  | cons e rest ih =>
    unfold checkExclusionsLoop
    rw [matchesExclusion_hash v k e hk]
    exact ih

/-- C10 (confirmed): no exclusion rule of any type can match a hash-kind
indicator: for every rule list, `check_exclusions` returns no match for
`md5`, `sha1` and `sha256` indicators. -/
theorem C10_hash_never_excluded (value k : List Char)
    (excls : List Exclusion)
    (hk : k = "md5".data ∨ k = "sha1".data ∨ k = "sha256".data) :
    checkExclusions value k excls = .ok none :=
  checkExclusionsLoop_hash (pyLower value) k excls hk

/-- Closed instance of `C10_hash_never_excluded` on a rule list holding
one rule of each type. -/
theorem C10_hash_never_excluded_witness :
    checkExclusions ['d','4','1','d'] "md5".data
      [⟨1, "10.0.0.0/8".data, .cidr, none, false⟩,
       ⟨2, "d41d".data, .domain, none, false⟩,
       ⟨3, "*.d41d".data, .wildcard, none, false⟩,
       ⟨4, "d41d".data, .ip, none, false⟩] = .ok none :=
  C10_hash_never_excluded ['d','4','1','d'] "md5".data _ (Or.inl rfl)

/-- C4 (code-bug evidence): for a cidr rule `10.0.0.0/8` against ip-kind
indicators the positive and negative cases of the claim hold, but a
version-mixed pair is NOT a silent no-match: a syntactically valid IPv6
network indicator raises `TypeError` out of the matcher (CPython
`subnet_of` raises `TypeError` across versions, which is not caught),
contradicting `any parse failure on either side yields no-match without
raising an error`. -/
theorem C4_cidr_rule_matching :
    matchesExclusion ['1','0','.','1','.','2','.','3'] "ip".data
      ⟨1, ['1','0','.','0','.','0','.','0','/','8'], .cidr, none, false⟩ =
      .ok true ∧
    matchesExclusion ['1','0','.','1','.','0','.','0','/','1','6'] "ip".data
      ⟨1, ['1','0','.','0','.','0','.','0','/','8'], .cidr, none, false⟩ =
      .ok true ∧
    matchesExclusion ['1','1','.','0','.','0','.','0','/','8'] "ip".data
      ⟨1, ['1','0','.','0','.','0','.','0','/','8'], .cidr, none, false⟩ =
      .ok false ∧
    matchesExclusion
      ['2','0','0','1',':','d','b','8',':',':','/','3','2'] "ip".data
      ⟨1, ['1','0','.','0','.','0','.','0','/','8'], .cidr, none, false⟩ =
      .error .typeError :=
  ⟨rfl, rfl, rfl, rfl⟩

/-- C2 (code-bug evidence): with a concurrent transaction having
committed the same normalized value (`raceIocs`), `add_ioc` on a fresh
value returns the storage `IntegrityError` as a fatal error and recovers
nothing — `ioc_service.add_ioc` contains no `except IntegrityError`
fetch-existing-and-continue path. -/
theorem C2_race_not_recovered :
    addIoc
      ⟨[⟨1, ['M','a','i','n'], ['m','a','i','n'], none, "mixed".data, none⟩],
        [], [], [], [], [], 2⟩
      ['1','.','2','.','3','.','4'] [['m','a','i','n']] none none none
      [⟨10, ['1','.','2','.','3','.','4'], "ip".data⟩] =
    (.error .integrityError,
      ⟨[⟨1, ['M','a','i','n'], ['m','a','i','n'], none, "mixed".data, none⟩],
        [], [], [], [], [], 2⟩) :=
  rfl

/-- C3 counterexample: renaming a list regenerates its slug:
`update_list` on the list `oldname` with new display name `New Name`
returns (and stores) slug `newname`, so the slug does NOT survive a name
change. -/
theorem C3_rename_changes_slug :
    updateList
      ⟨[⟨1, ['O','l','d',' ','N','a','m','e'], ['o','l','d','n','a','m','e'],
          none, "mixed".data, none⟩], [], [], [], [], [], 2⟩
      ['o','l','d','n','a','m','e']
      ⟨some ['N','e','w',' ','N','a','m','e'], none, none, none⟩ =
    (.ok ⟨1, ['N','e','w',' ','N','a','m','e'], ['n','e','w','n','a','m','e'],
        none, "mixed".data, none⟩,
      ⟨[⟨1, ['N','e','w',' ','N','a','m','e'], ['n','e','w','n','a','m','e'],
          none, "mixed".data, none⟩], [], [], [], [], [], 2⟩) :=
  rfl

/-- C3 (corrected): what `update_list` actually guarantees about slugs: an
update that does not carry a name keeps the stored slug, and an update
that carries a name `n` always re-derives the slug as `generate_slug(n)`
(subject to the duplicate/validity rejections) — slug immutability under
renames does not hold. -/
theorem C3_slug_update_amended :
    (∀ (db : DB) (slug : List Char) (data : ListUpdate) (lst : ListRow)
        (db' : DB), data.name = none →
      updateList db slug data = (.ok lst, db') → lst.slug = slug) ∧
    (∀ (db : DB) (slug : List Char) (data : ListUpdate) (lst : ListRow)
        (db' : DB) (n : List Char), data.name = some n →
      updateList db slug data = (.ok lst, db') →
      lst.slug = generateSlug n) := by
  constructor
  · intro db slug data lst db' hn h
    unfold updateList at h
    cases hf : db.lists.find? (fun l => l.slug = slug) with
    | none => rw [hf] at h; simp at h
    | some listObj =>
      rw [hf] at h
      have hfind := List.find?_some hf
      have hslug : listObj.slug = slug := by simpa using hfind
      rw [hn] at h
      dsimp only at h
      split_ifs at h with ht
      · simp at h
      · simp only [Prod.mk.injEq, Except.ok.injEq] at h
        obtain ⟨h1', -⟩ := h
        subst h1'
        exact hslug
  · intro db slug data lst db' n hn h
    unfold updateList at h
    cases hf : db.lists.find? (fun l => l.slug = slug) with
    | none => rw [hf] at h; simp at h
    | some listObj =>
      rw [hf] at h
      rw [hn] at h
      dsimp only at h
      split_ifs at h with ht h1 h2 h3
      · simp at h
      · simp at h
      · simp only [Prod.mk.injEq, Except.ok.injEq] at h
        obtain ⟨h1', -⟩ := h
        subst h1'
        rfl
      · simp at h
      · simp only [Prod.mk.injEq, Except.ok.injEq] at h
        obtain ⟨h1', -⟩ := h
        subst h1'
        simp only [ne_eq, not_not] at h1
        exact h1.symm

/-- Closed instance of `C3_slug_update_amended`: the rename of
`oldname` to display name `New Name` yields `generate_slug` of the new
name, the update hypothesis discharged by evaluation. -/
theorem C3_slug_update_amended_witness :
    (⟨1, ['N','e','w',' ','N','a','m','e'], ['n','e','w','n','a','m','e'],
        none, "mixed".data, none⟩ : ListRow).slug =
      generateSlug ['N','e','w',' ','N','a','m','e'] :=
  C3_slug_update_amended.2
    ⟨[⟨1, ['O','l','d'], ['o','l','d','n','a','m','e'], none,
        "mixed".data, none⟩], [], [], [], [], [], 2⟩
    ['o','l','d','n','a','m','e']
    ⟨some ['N','e','w',' ','N','a','m','e'], none, none, none⟩
    ⟨1, ['N','e','w',' ','N','a','m','e'], ['n','e','w','n','a','m','e'],
      none, "mixed".data, none⟩
    ⟨[⟨1, ['N','e','w',' ','N','a','m','e'], ['n','e','w','n','a','m','e'],
        none, "mixed".data, none⟩], [], [], [], [], [], 2⟩
    ['N','e','w',' ','N','a','m','e'] rfl rfl

/-- C9 (confirmed): when validation and exclusion checks pass, every slug
resolves, and some resolved list's type disallows the indicator kind,
`add_ioc` returns `ListTypeMismatchError` carrying the indicator kind and
the list type, and the state is returned unchanged: no indicator row, no
link, no audit entry. -/
theorem C9_list_type_mismatch_no_mutation (db : DB) (value : List Char)
    (listSlugs : List (List Char)) (comment source addedBy : Option (List Char))
    (raceIocs : List IOCRow) (nv : List Char) (t : IOCType) (lst : ListRow)
    (hv : validateIoc value = .ok (nv, t))
    (hex : checkExclusions nv t.value db.exclusions = .ok none)
    (hms : missingSlugs db listSlugs = [])
    (hfind : (resolvedLists db listSlugs).find?
      (fun lst => ¬ isIocTypeAllowed t.value lst.listType) = some lst) :
    addIoc db value listSlugs comment source addedBy raceIocs =
      (.error (.listTypeMismatch t.value lst.listType), db) := by
  unfold addIoc
  rw [hv]
  dsimp only
  rw [hex]
  dsimp only
  rw [if_neg (by simp [hms]), hfind]

/-- Closed instance of `C9_list_type_mismatch_no_mutation`: adding the
domain `example.com` to the ip-only list `ips` errors and leaves the
state unchanged. -/
theorem C9_list_type_mismatch_witness :
    addIoc
      ⟨[⟨1, ['I','P','s'], ['i','p','s'], none, "ip".data, none⟩],
        [], [], [], [], [], 2⟩
      ['e','x','a','m','p','l','e','.','c','o','m'] [['i','p','s']]
      none none none [] =
    (.error (.listTypeMismatch "domain".data "ip".data),
      ⟨[⟨1, ['I','P','s'], ['i','p','s'], none, "ip".data, none⟩],
        [], [], [], [], [], 2⟩) :=
  C9_list_type_mismatch_no_mutation _ _ _ _ _ _ _
    ['e','x','a','m','p','l','e','.','c','o','m'] .domain
    ⟨1, ['I','P','s'], ['i','p','s'], none, "ip".data, none⟩
    rfl rfl rfl rfl

theorem addLinks_all_existing (iocId : Nat) (addedBy : Option (List Char))
    (existing : List Nat) (L : List ListRow) (nid : Nat)
    (h : ∀ lst ∈ L, lst.id ∈ existing) :
    addLinks iocId addedBy existing L nid = ([], [], nid) := by
  induction L generalizing nid with
  | nil => rfl
  | cons lst rest ih =>
    unfold addLinks
    rw [if_pos]
    · exact ih nid (fun l hl => h l (List.mem_cons_of_mem lst hl))
    · exact List.elem_iff.mpr (h lst (List.mem_cons_self lst rest))

theorem db_append_nils (db : DB) :
    ({ db with
        iocs := db.iocs ++ []
        links := db.links ++ []
        audits := db.audits ++ []
        comments := db.comments ++ []
        nextId := db.nextId } : DB) = db := by
  cases db
  simp

/-- C8 (confirmed): re-adding an indicator that already exists and is
already linked to every target list is a no-op: `add_ioc` succeeds,
creates no second membership link, writes no second audit entry, and
returns the state unchanged — the one-link-per-pair invariant is
preserved. -/
theorem C8_readd_is_noop (db : DB) (value : List Char)
    (listSlugs : List (List Char)) (addedBy : Option (List Char))
    (nv : List Char) (t : IOCType) (ioc : IOCRow)
    (hv : validateIoc value = .ok (nv, t))
    (hex : checkExclusions nv t.value db.exclusions = .ok none)
    (hms : missingSlugs db listSlugs = [])
    (hfind : (resolvedLists db listSlugs).find?
      (fun lst => ¬ isIocTypeAllowed t.value lst.listType) = none)
    (hioc : db.iocs.find? (fun i => i.value = nv) = some ioc)
    (hlinked : ∀ lst ∈ resolvedLists db listSlugs,
      lst.id ∈ (linksOfIoc db ioc.id).map (fun l => l.listId)) :
    addIoc db value listSlugs none none addedBy [] = (.ok ioc, db) := by
  unfold addIoc
  rw [hv]
  dsimp only
  rw [hex]
  dsimp only
  rw [if_neg (by simp [hms]), hfind]
  dsimp only
  rw [hioc]
  dsimp only
  rw [addLinks_all_existing ioc.id addedBy _ _ db.nextId hlinked]
  dsimp only
  rw [db_append_nils db]

/-- Closed instance of `C8_readd_is_noop`: in a state where `1.2.3.4`
exists and is linked to the list `main`, adding it to `main` again
returns the indicator and the state unchanged. -/
theorem C8_readd_is_noop_witness :
    addIoc
      ⟨[⟨1, ['M','a','i','n'], ['m','a','i','n'], none, "mixed".data, none⟩],
        [⟨2, ['1','.','2','.','3','.','4'], "ip".data⟩],
        [⟨3, 1, 2, none⟩], [], [], [], 5⟩
      ['1','.','2','.','3','.','4'] [['m','a','i','n']] none none none [] =
    (.ok ⟨2, ['1','.','2','.','3','.','4'], "ip".data⟩,
      ⟨[⟨1, ['M','a','i','n'], ['m','a','i','n'], none, "mixed".data, none⟩],
        [⟨2, ['1','.','2','.','3','.','4'], "ip".data⟩],
        [⟨3, 1, 2, none⟩], [], [], [], 5⟩) :=
  C8_readd_is_noop _ _ _ _ ['1','.','2','.','3','.','4'] .ip
    ⟨2, ['1','.','2','.','3','.','4'], "ip".data⟩
    rfl rfl rfl rfl rfl (by decide)

/-! ## Domain-regex label structure -/

theorem splitOnChar_len2 (sep : Char) (cs : List Char) (h : sep ∈ cs) :
    2 ≤ (splitOnChar sep cs).length := by
  induction cs with
  | nil => cases h
  | cons c rest ih =>
    by_cases hc : c = sep
    · simp only [splitOnChar, if_pos hc, List.length_cons]
      have := splitOnChar_ne_nil sep rest
      cases hs : splitOnChar sep rest with
      | nil => exact absurd hs this
      | cons p ps => simp
    · have hrest : sep ∈ rest := by
        rcases List.mem_cons.mp h with rfl | hm
        · exact absurd rfl hc
        · exact hm
      simp only [splitOnChar, if_neg hc]
      cases hs : splitOnChar sep rest with
      | nil => exact absurd hs (splitOnChar_ne_nil sep rest)
      | cons p ps =>
        have := ih hrest
        rw [hs] at this
        simpa using this

theorem splitOnChar_getLast (sep : Char) (zs ys : List Char)
    (hy : sep ∉ ys) :
    (splitOnChar sep (zs ++ sep :: ys)).getLast? = some ys := by
  induction zs with
  | nil =>
    simp only [List.nil_append, splitOnChar, if_pos rfl,
      splitOnChar_no_sep sep ys hy]
    rfl
  | cons c zs' ih =>
    by_cases hc : c = sep
    · simp only [List.cons_append, splitOnChar, if_pos hc]
      cases hs : splitOnChar sep (zs' ++ sep :: ys) with
      | nil => exact absurd hs (splitOnChar_ne_nil sep _)
      | cons p ps =>
        rw [List.getLast?_cons_cons]
        rw [hs] at ih
        exact ih
    · simp only [List.cons_append, splitOnChar, if_neg hc]
      cases hs : splitOnChar sep (zs' ++ sep :: ys) with
      | nil => exact absurd hs (splitOnChar_ne_nil sep _)
      | cons p ps =>
        cases ps with
        | nil =>
          have h2 := splitOnChar_len2 sep (zs' ++ sep :: ys)
            (by simp)
          rw [hs] at h2
          simp at h2
        | cons q qs =>
          rw [List.getLast?_cons_cons]
          rw [hs, List.getLast?_cons_cons] at ih
          exact ih

theorem firstLabelRems_inv (cs r1 : List Char)
    (h : r1 ∈ firstLabelRems cs) :
    ∃ k, 1 ≤ k ∧ k ≤ 63 ∧ (cs.take k).length = k ∧
      (cs.take k).all isLabelChar = true ∧
      (cs.take k).head? ≠ some '-' ∧ (cs.take k).getLast? ≠ some '-' ∧
      r1 = cs.drop k := by
  unfold firstLabelRems at h
  obtain ⟨k0, hk0, hf⟩ := List.mem_filterMap.mp h
  dsimp only at hf
  split_ifs at hf with hcond
  simp only [Option.some.injEq] at hf
  obtain ⟨hlen, hall, hh, hl⟩ := hcond
  exact ⟨k0 + 1, by omega, by simp at hk0; omega, hlen, hall, hh, hl, hf.symm⟩

theorem groupRems_inv (r g : List Char) (h : g ∈ groupRems r) :
    ∃ rest k, r = '.' :: rest ∧ 1 ≤ k ∧ g = rest.drop k := by
  cases r with
  | nil =>
    simp only [groupRems] at h
    exact absurd h (List.not_mem_nil g)
  | cons c rest =>
    simp only [groupRems] at h
    split_ifs at h with hc
    · obtain ⟨k0, hk0, hf⟩ := List.mem_filterMap.mp h
      split_ifs at hf with hcond
      simp only [Option.some.injEq] at hf
      exact ⟨rest, k0 + 1, by rw [hc], by omega, hf.symm⟩
    · cases h

theorem starRems_inv (fuel : Nat) (r r2 : List Char)
    (h : r2 ∈ starRems fuel r) :
    (∃ A, r = A ++ r2) ∧ (r2 = r ∨ ∃ rest, r = '.' :: rest) := by
  induction fuel generalizing r with
  | zero =>
    simp only [starRems, List.mem_singleton] at h
    exact ⟨⟨[], by rw [h, List.nil_append]⟩, Or.inl h⟩
  | succ fuel ih =>
    simp only [starRems, List.mem_cons] at h
    rcases h with rfl | h
    · exact ⟨⟨[], rfl⟩, Or.inl rfl⟩
    · obtain ⟨g, hg, hr2⟩ := List.mem_flatMap.mp h
      obtain ⟨⟨A, hA⟩, -⟩ := ih g hr2
      obtain ⟨rest, k, hr, hk, hgk⟩ := groupRems_inv r g hg
      refine ⟨⟨'.' :: rest.take k ++ A, ?_⟩, Or.inr ⟨rest, hr⟩⟩
      rw [hr]
      calc ('.' : Char) :: rest
          = '.' :: (rest.take k ++ rest.drop k) := by
            rw [List.take_append_drop]
        _ = ('.' :: rest.take k) ++ rest.drop k := by rw [List.cons_append]
        _ = ('.' :: rest.take k) ++ g := by rw [hgk]
        _ = (('.' :: rest.take k) ++ A) ++ r2 := by rw [hA, List.append_assoc]

theorem isLabelChar_ne_dot (c : Char) (h : isLabelChar c = true) : c ≠ '.' := by
  intro he
  subst he
  exact absurd h (by decide)

theorem isAlphaChar_ne_dot (c : Char) (h : isAlphaChar c = true) : c ≠ '.' := by
  intro he
  subst he
  exact absurd h (by decide)

theorem domainMatch_labels (cs : List Char) (hdm : domainMatch cs = true) :
    2 ≤ (splitOnChar '.' cs).length ∧
    (∀ first, (splitOnChar '.' cs).head? = some first →
      1 ≤ first.length ∧ first.length ≤ 63 ∧
      first.all isLabelChar = true ∧
      first.head? ≠ some '-' ∧ first.getLast? ≠ some '-') ∧
    (∀ lastLabel, (splitOnChar '.' cs).getLast? = some lastLabel →
      2 ≤ lastLabel.length ∧ lastLabel.all isAlphaChar = true) := by
  unfold domainMatch at hdm
  obtain ⟨r1, hr1, hany⟩ := List.any_eq_true.mp hdm
  obtain ⟨r2, hr2, hfin⟩ := List.any_eq_true.mp hany
  cases r2 with
  | nil => cases hfin
  | cons c final =>
    unfold finalLabelOk at hfin
    simp only [Bool.and_eq_true, decide_eq_true_eq, ge_iff_le] at hfin
    obtain ⟨⟨hc, hlen⟩, halpha⟩ := hfin
    subst hc
    obtain ⟨k, hk1, hk63, hklen, hlab, hh, hl, hr1eq⟩ :=
      firstLabelRems_inv cs r1 hr1
    obtain ⟨⟨A, hA⟩, hshape⟩ := starRems_inv r1.length r1 _ hr2
    have hcs : cs = cs.take k ++ r1 := by
      rw [hr1eq, List.take_append_drop]
    have hdotpre : ('.' : Char) ∉ cs.take k := fun hmem =>
      isLabelChar_ne_dot '.' (List.all_eq_true.mp hlab '.' hmem) rfl
    have hdotfin : ('.' : Char) ∉ final := fun hmem =>
      isAlphaChar_ne_dot '.' (List.all_eq_true.mp halpha '.' hmem) rfl
    have htail : ∃ tail, r1 = '.' :: tail := by
      rcases hshape with heq | ⟨rest, hr⟩
      · exact ⟨final, heq.symm⟩
      · exact ⟨rest, hr⟩
    obtain ⟨tail, htail⟩ := htail
    have hsplit : splitOnChar '.' cs = cs.take k :: splitOnChar '.' tail := by
      conv_lhs => rw [hcs, htail]
      exact splitOnChar_append '.' (cs.take k) tail hdotpre
    have hlast : (splitOnChar '.' cs).getLast? = some final := by
      have hcs2 : cs = (cs.take k ++ A) ++ '.' :: final := by
        conv_lhs => rw [hcs, hA]
        rw [List.append_assoc]
      rw [hcs2]
      exact splitOnChar_getLast '.' (cs.take k ++ A) final hdotfin
    refine ⟨?_, ?_, ?_⟩
    · rw [hsplit]
      have := splitOnChar_ne_nil '.' tail
      cases hs : splitOnChar '.' tail with
      | nil => exact absurd hs this
      | cons p ps => simp
    · intro first hfirst
      rw [hsplit] at hfirst
      simp only [List.head?_cons, Option.some.injEq] at hfirst
      subst hfirst
      exact ⟨by omega, by omega, hlab, hh, hl⟩
    · intro lastLabel hlastL
      rw [hlast] at hlastL
      simp only [Option.some.injEq] at hlastL
      subst hlastL
      exact ⟨hlen, halpha⟩

theorem validateIoc_domain_inv (cs nv : List Char)
    (h : validateIoc cs = .ok (nv, .domain)) :
    domainMatch (pyStrip cs) = true := by
  unfold validateIoc at h
  dsimp only at h
  by_cases he : pyStrip cs = []
  · rw [if_pos he] at h; cases h
  rw [if_neg he] at h
  cases hpa : parseIPAddress (pyStrip cs) with
  | some a =>
    rw [hpa] at h
    simp at h
  | none =>
    rw [hpa] at h
    dsimp only at h
    cases hpn : parseIPNet (pyStrip cs) with
    | some net =>
      rw [hpn] at h
      simp at h
    | none =>
      rw [hpn] at h
      dsimp only at h
      split_ifs at h with h256 h1 hmd5 hwild hdom
      · simp at h
      · simp at h
      · simp at h
      · simp at h
      · exact hdom

/-- C7 counterexample: `a.-b.com` — whose second label `-b` begins with a
hyphen — is classified `domain` by `validate_ioc`: the regex constrains
only the first label's edges. -/
theorem C7_hyphen_label_counterexample :
    validateIoc ['a','.','-','b','.','c','o','m'] =
      .ok (['a','.','-','b','.','c','o','m'], .domain) ∧
    (splitOnChar '.' ['a','.','-','b','.','c','o','m']).get? 1 =
      some ['-','b'] ∧
    (['-','b'] : List Char).head? = some '-' :=
  ⟨rfl, rfl, rfl⟩

/-- C7 (corrected): what the DOMAIN classification does guarantee: the
string splits into at least two dot-labels, the FIRST label is 1-63
label characters with no leading or trailing hyphen, and the LAST label
is at least 2 letters.  Interior labels are NOT hyphen-constrained (see
the counterexample), so `every dot-separated label ... no leading and no
trailing hyphen` is false as stated. -/
theorem C7_domain_label_rules :
    ∀ cs nv : List Char, validateIoc cs = .ok (nv, .domain) →
      2 ≤ (splitOnChar '.' (pyStrip cs)).length ∧
      (∀ first, (splitOnChar '.' (pyStrip cs)).head? = some first →
        1 ≤ first.length ∧ first.length ≤ 63 ∧
        first.all isLabelChar = true ∧
        first.head? ≠ some '-' ∧ first.getLast? ≠ some '-') ∧
      (∀ lastLabel, (splitOnChar '.' (pyStrip cs)).getLast? = some lastLabel →
        2 ≤ lastLabel.length ∧ lastLabel.all isAlphaChar = true) :=
  fun cs nv h => domainMatch_labels (pyStrip cs) (validateIoc_domain_inv cs nv h)

/-- Closed instance of `C7_domain_label_rules` at `example.com`. -/
theorem C7_domain_label_rules_witness :
    2 ≤ (splitOnChar '.'
      (pyStrip ['e','x','a','m','p','l','e','.','c','o','m'])).length :=
  (C7_domain_label_rules ['e','x','a','m','p','l','e','.','c','o','m']
    ['e','x','a','m','p','l','e','.','c','o','m'] rfl).1

/-- C1 counterexample: a `wildcard` rule `*.evil.com` against the
wildcard-KIND indicator `*.sub.evil.com`: the live matcher
(`_matches_exclusion`, wildcard branch gated on `ioc_type == "domain"`
only) says no match, while the preview/purge matcher
(`_ioc_matches_exclusion`, gated on `domain` OR `wildcard`) says match. -/
theorem C1_wildcard_divergence :
    matchesExclusion
      ['*','.','s','u','b','.','e','v','i','l','.','c','o','m']
      "wildcard".data
      ⟨1, ['*','.','e','v','i','l','.','c','o','m'], .wildcard, none, false⟩ =
      .ok false ∧
    iocMatchesExclusion
      ['*','.','s','u','b','.','e','v','i','l','.','c','o','m']
      "wildcard".data ['*','.','e','v','i','l','.','c','o','m']
      "wildcard".data = .ok true :=
  ⟨rfl, rfl⟩

/-- C1 (corrected): the two matchers agree on every rule whose stored
value is lowercase-normalized, EXCEPT the wildcard-rule/wildcard-kind
combination (where they diverge — see the counterexample): for every
already-normalized indicator value, kind and rule outside that
combination, live and preview return the same decision. -/
theorem C1_matchers_agree (v k : List Char) (e : Exclusion)
    (hlow : pyLower e.value = e.value)
    (hnw : ¬(e.type = ExclusionType.wildcard ∧ k = "wildcard".data)) :
    matchesExclusion v k e = iocMatchesExclusion v k e.value e.type.value := by
  obtain ⟨eid, ev, ety, er, eb⟩ := e
  dsimp only at hlow hnw ⊢
  cases ety with
  | ip =>
    unfold matchesExclusion iocMatchesExclusion
    dsimp only [ExclusionType.value]
    by_cases hk : k = "ip".data
    · rw [if_neg (fun hc => by cases hc.1), if_neg (fun hc => by cases hc.1),
        if_neg (fun hc => by cases hc.1), if_pos ⟨rfl, hk⟩,
        if_neg (fun hc => absurd hc.1 (by decide)),
        if_neg (fun hc => absurd hc.1 (by decide)),
        if_neg (fun hc => absurd hc.1 (by decide)),
        if_pos ⟨rfl, hk⟩, hlow]
    · rw [if_neg (fun hc => by cases hc.1), if_neg (fun hc => by cases hc.1),
        if_neg (fun hc => by cases hc.1), if_neg (fun hc => hk hc.2),
        if_neg (fun hc => absurd hc.1 (by decide)),
        if_neg (fun hc => absurd hc.1 (by decide)),
        if_neg (fun hc => absurd hc.1 (by decide)),
        if_neg (fun hc => hk hc.2)]
  | domain =>
    unfold matchesExclusion iocMatchesExclusion
    dsimp only [ExclusionType.value]
    by_cases hk : k = "domain".data
    · by_cases hv : v = pyLower ev
      · rw [if_pos ⟨rfl, hk, hv⟩,
          if_neg (fun hc => absurd hc.1 (by decide)),
          if_neg (fun hc => absurd hc.1 (by decide)),
          if_pos ⟨rfl, hk⟩]
        simp [hv]
      · rw [if_neg (fun hc => hv hc.2.2), if_neg (fun hc => by cases hc.1),
          if_neg (fun hc => by cases hc.1), if_neg (fun hc => by cases hc.1),
          if_neg (fun hc => absurd hc.1 (by decide)),
          if_neg (fun hc => absurd hc.1 (by decide)),
          if_pos ⟨rfl, hk⟩]
        simp [hv]
    · rw [if_neg (fun hc => hk hc.2.1), if_neg (fun hc => by cases hc.1),
        if_neg (fun hc => by cases hc.1), if_neg (fun hc => by cases hc.1),
        if_neg (fun hc => absurd hc.1 (by decide)),
        if_neg (fun hc => absurd hc.1 (by decide)),
        if_neg (fun hc => hk hc.2),
        if_neg (fun hc => absurd hc.1 (by decide))]
  | cidr =>
    unfold matchesExclusion iocMatchesExclusion
    dsimp only [ExclusionType.value]
    rw [hlow]
    by_cases hk : k = "ip".data
    · rw [if_neg (fun hc => by cases hc.1), if_pos ⟨rfl, hk⟩,
        if_pos ⟨rfl, hk⟩]
    · rw [if_neg (fun hc => by cases hc.1), if_neg (fun hc => hk hc.2),
        if_neg (fun hc => by cases hc.1), if_neg (fun hc => by cases hc.1),
        if_neg (fun hc => hk hc.2),
        if_neg (fun hc => absurd hc.1 (by decide)),
        if_neg (fun hc => absurd hc.1 (by decide)),
        if_neg (fun hc => absurd hc.1 (by decide))]
  | wildcard =>
    have hknw : k ≠ "wildcard".data := fun hk => hnw ⟨rfl, hk⟩
    unfold matchesExclusion iocMatchesExclusion
    dsimp only [ExclusionType.value]
    by_cases hk : k = "domain".data
    · rw [if_neg (fun hc => by cases hc.1), if_neg (fun hc => by cases hc.1),
        if_pos ⟨rfl, hk⟩,
        if_neg (fun hc => absurd hc.1 (by decide)),
        if_pos ⟨rfl, Or.inl hk⟩]
    · rw [if_neg (fun hc => by cases hc.1), if_neg (fun hc => by cases hc.1),
        if_neg (fun hc => hk hc.2), if_neg (fun hc => by cases hc.1),
        if_neg (fun hc => absurd hc.1 (by decide)),
        if_neg (fun hc => hc.2.elim hk hknw),
        if_neg (fun hc => absurd hc.1 (by decide)),
        if_neg (fun hc => absurd hc.1 (by decide))]

/-- Closed instance of `C1_matchers_agree`: a cidr rule `10.0.0.0/8`
against ip-kind `10.1.2.3`, hypotheses discharged by evaluation. -/
theorem C1_matchers_agree_witness :
    matchesExclusion ['1','0','.','1','.','2','.','3'] "ip".data
      ⟨1, ['1','0','.','0','.','0','.','0','/','8'], .cidr, none, false⟩ =
    iocMatchesExclusion ['1','0','.','1','.','2','.','3'] "ip".data
      ['1','0','.','0','.','0','.','0','/','8'] "cidr".data :=
  C1_matchers_agree ['1','0','.','1','.','2','.','3'] "ip".data
    ⟨1, ['1','0','.','0','.','0','.','0','/','8'], .cidr, none, false⟩
    (by decide) (by decide)

end Nope
